import Mathlib

/-!
Shallow embedding of the easy-i18n-js extraction and locale-reconciliation
core (src/core/extractor.ts, src/core/parser.ts, src/core/updater.ts).

Strings are modelled as Lean `String`/`List Char`; JavaScript objects used as
flat string-to-string catalogs are modelled as insertion-ordered association
lists (`Catalog`).  JavaScript regular expressions are modelled by dedicated
deterministic scanners that mirror the backtracking behaviour of each concrete
pattern of the source.  The ASCII part of the JavaScript `\s` class is used
(inputs exercised here are ASCII).
-/

namespace EasyI18n

/-- The ASCII portion of the JavaScript regexp class `\s`. -/
def isJsWs (c : Char) : Bool :=
  c = ' ' || c = '\t' || c = '\n' || c = '\r' || c = '\x0b' || c = '\x0c'

/-- JavaScript word characters (`\w`), used for the `\b` boundary assertion. -/
def isWordChar (c : Char) : Bool :=
  c.isAlphanum || c = '_'

/-- One pass of `String.prototype.replace` with a global two-character literal
pattern `a b` and replacement `r`, scanning left to right without overlap.
`unescapeString` of parser.ts is a chain of seven such passes. -/
def replace2 (a b : Char) (r : List Char) : List Char → List Char
  | [] => []
  | [c] => [c]
  | c :: d :: rest =>
    if c = a && d = b then r ++ replace2 a b r rest
    else c :: replace2 a b r (d :: rest)

/-- parser.ts `unescapeString`: the seven sequential global replaces
`\'`, `\"`, `` \` ``, `\n`, `\t`, `\r`, `\\`, in source order. -/
def unescapeChars (s : List Char) : List Char :=
  let s1 := replace2 '\\' '\x27' ['\x27'] s
  let s2 := replace2 '\\' '"' ['"'] s1
  let s3 := replace2 '\\' '\x60' ['\x60'] s2
  let s4 := replace2 '\\' 'n' ['\n'] s3
  let s5 := replace2 '\\' 't' ['\t'] s4
  let s6 := replace2 '\\' 'r' ['\r'] s5
  replace2 '\\' '\\' ['\\'] s6

/-- Emit a collected whitespace run: a single space when it contained a
newline, the run itself otherwise. -/
def flushRun (pending : List Char) (sawNl : Bool) : List Char :=
  if pending.isEmpty then [] else if sawNl then [' '] else pending

/-- Worker of `collapseWs`, collecting the current whitespace run. -/
def collapseWsGo : List Char → Bool → List Char → List Char
  | pending, sawNl, [] => flushRun pending sawNl
  | pending, sawNl, c :: rest =>
    if isJsWs c then collapseWsGo (pending ++ [c]) (sawNl || c = '\n') rest
    else flushRun pending sawNl ++ c :: collapseWsGo [] false rest

/-- `.replace(/\s*\n\s*/g, ' ')`: every maximal whitespace run containing a
newline collapses to a single space (the regex matches exactly such a run:
the greedy `\s*` on each side extends the match to the run's ends). -/
def collapseWs (s : List Char) : List Char :=
  collapseWsGo [] false s

/-- `String.prototype.trim` (ASCII whitespace). -/
def trimChars (s : List Char) : List Char :=
  ((s.dropWhile isJsWs).reverse.dropWhile isJsWs).reverse

/-- extractor.ts / parser.ts post-match cleanup without unescaping:
`.replace(/\s*\n\s*/g, ' ').trim()`. -/
def cleanupCapture (raw : List Char) : String :=
  String.mk (trimChars (collapseWs raw))

/-- parser.ts `parseTemplate` per-match processing: unescape, then collapse
whitespace runs spanning a newline, then trim. -/
def cleanTemplateCapture (raw : List Char) : String :=
  String.mk (trimChars (collapseWs (unescapeChars raw)))

/-- `[...new Set(results)]`: deduplication keeping first occurrences. -/
def jsSetDedup (l : List String) : List String :=
  l.foldl (fun acc k => if acc.contains k then acc else acc ++ [k]) []

/-- Worker of `braceScan`: `none` outside a candidate match, `some acc` after
an opening brace with `acc` the non-`\x7d` characters read so far.  A closing
brace on a non-empty run yields a capture; on an empty run the attempt fails
and the engine restarts (no later attempt can begin inside the failed one). -/
def braceScanGo : Option (List Char) → List Char → List String
  | _, [] => []
  | none, c :: rest =>
    if c = '\x7b' then braceScanGo (some []) rest else braceScanGo none rest
  | some acc, c :: rest =>
    if c = '\x7d' then
      if acc.isEmpty then braceScanGo none rest
      else String.mk acc :: braceScanGo none rest
    else braceScanGo (some (acc ++ [c])) rest

/-- The scan performed by the global regex `/\{([^}]+)\}/g`: each match is a
maximal nonempty run of non-`\x7d` characters between braces. -/
def braceScan (s : List Char) : List String :=
  braceScanGo none s

/-- extractor.ts `extractParamsFromKey` (`/\{([^}]+)\}/g`, unsorted). -/
def extractParamsFromKey (key : String) : List String :=
  braceScan key.data

/-- Insertion step of a sort by `≤` on strings, modelling `Array.sort()`. -/
def insertSorted (x : String) : List String → List String
  | [] => [x]
  | y :: ys => if x ≤ y then x :: y :: ys else y :: insertSorted x ys

/-- Insertion sort on strings, modelling JavaScript `Array.prototype.sort()`
(default lexicographic comparator). -/
def sortStrings (l : List String) : List String :=
  l.foldr insertSorted []

/-- updater.ts `extractParams`: brace-token names of a string, sorted. -/
def extractParams (str : String) : List String :=
  sortStrings (braceScan str.data)

/-- updater.ts `hasParams`: `/\{[^}]+\}/.test(str)` — true iff the brace-token
scan finds at least one match. -/
def hasParams (str : String) : Bool :=
  !(braceScan str.data).isEmpty

/-- updater.ts `arraysEqual`: element-wise equality of string arrays. -/
def arraysEqual (a b : List String) : Bool :=
  a == b

/-! ## Locale catalogs (updater.ts) -/

/-- A flat JavaScript object used as a locale catalog: an insertion-ordered
association list with (in every reachable state) pairwise-distinct keys. -/
abbrev Catalog := List (String × String)

/-- `key in obj` followed by `obj[key]`: the value at a key, if present. -/
def lookupC (c : Catalog) (k : String) : Option String :=
  (c.find? (fun kv => kv.1 == k)).map (·.2)

/-- `key in obj`. -/
def hasKeyC (c : Catalog) (k : String) : Bool :=
  c.any (fun kv => kv.1 == k)

/-- `obj[key] = v`: overwrite in place when the key exists (keeping its
position), append otherwise. -/
def setC (c : Catalog) (k v : String) : Catalog :=
  if hasKeyC c k then c.map (fun kv => if kv.1 == k then (k, v) else kv)
  else c ++ [(k, v)]

/-- Options of updater.ts `updateLocale`. -/
structure UpdateLocaleOptions where
  flush : Bool := false
  removeUntranslated : Bool := false
  validateParams : Bool := false
  returnStats : Bool := false
  deriving Repr, DecidableEq

/-- Statistics accumulated by `updateLocale`. -/
structure UpdateStats where
  added : Nat := 0
  removed : Nat := 0
  unchanged : Nat := 0
  total : Nat := 0
  deriving Repr, DecidableEq

/-- The body of `updateLocale`'s `for (const key in source)` loop for one
source entry, threading the working catalog and the statistics. -/
def updStep (opts : UpdateLocaleOptions) (acc : Catalog × UpdateStats)
    (kv : String × String) : Catalog × UpdateStats :=
  match lookupC acc.1 kv.1 with
  | some tv =>
    if opts.removeUntranslated && tv == kv.1 then
      (setC acc.1 kv.1 kv.2, { acc.2 with total := acc.2.total + 1 })
    else if opts.validateParams && hasParams kv.1 then
      if !(arraysEqual (extractParams kv.2) (extractParams tv)) then
        (setC acc.1 kv.1 ("[PARAM_MISMATCH] " ++ tv),
          { acc.2 with total := acc.2.total + 1 })
      else (acc.1, { acc.2 with total := acc.2.total + 1 })
    else (acc.1, { acc.2 with total := acc.2.total + 1, unchanged := acc.2.unchanged + 1 })
  | none =>
    (setC acc.1 kv.1 kv.2, { acc.2 with total := acc.2.total + 1, added := acc.2.added + 1 })

/-- updater.ts `updateLocale`: shallow copy of `target`, optional flush of
keys absent from `source`, then the per-source-key pass.  The JS function
returns either the catalog or `{result, stats}` depending on `returnStats`;
the model always returns both. -/
def updateLocale (source target : Catalog) (opts : UpdateLocaleOptions) :
    Catalog × UpdateStats :=
  let kept := if opts.flush then target.filter (fun kv => hasKeyC source kv.1) else target
  let removedCount :=
    if opts.flush then (target.filter (fun kv => !(hasKeyC source kv.1))).length else 0
  source.foldl (updStep opts) (kept, { removed := removedCount })

/-- updater.ts `findUnused`: keys of `target` absent from `source`, in
`target` order. -/
def findUnused (source target : Catalog) : List String :=
  (target.filter (fun kv => !(hasKeyC source kv.1))).map Prod.fst

/-- Result of updater.ts `getCoverage`. -/
structure CoverageStats where
  total : Nat
  translated : Nat
  missing : Nat
  percentage : Nat
  deriving Repr, DecidableEq

/-- The count of `source` keys present in `target` with a value that is
neither the key itself nor the empty string. -/
def translatedCount (source target : Catalog) : Nat :=
  (source.filter (fun kv =>
    match lookupC target kv.1 with
    | some tv => tv != kv.1 && tv != ""
    | none => false)).length

/-- updater.ts `getCoverage`.  `Math.round((translated / total) * 100)` is
modelled exactly on rationals: `⌊(100·t)/n + 1/2⌋ = (200·t + n) / (2·n)`. -/
def getCoverage (source target : Catalog) : CoverageStats :=
  let total := source.length
  let translated := translatedCount source target
  { total := total
    translated := translated
    missing := total - translated
    percentage := if total > 0 then (200 * translated + total) / (2 * total) else 100 }

/-! ## Extraction items and result merging (extractor.ts) -/

/-- One extracted occurrence.  The JS object leaves `hasParams`/`params`
absent unless set; absence is modelled by the defaults `false`/`[]` (the only
reads are `item.hasParams || false` and `item.params || []`). -/
structure ExtractionItem where
  key : String
  file : String
  line : Nat
  column : Nat
  hasParams : Bool := false
  params : List String := []
  deriving Repr, DecidableEq

/-- A `(file, line, column)` occurrence of a merged key. -/
structure Occurrence where
  file : String
  line : Nat
  column : Nat
  deriving Repr, DecidableEq

/-- One catalog key with all its occurrences. -/
structure MergedExtractionItem where
  key : String
  occurrences : List Occurrence
  hasParams : Bool
  params : List String
  deriving Repr, DecidableEq

/-- The occurrence recorded by `mergeResults` for one item. -/
def itemOccurrence (i : ExtractionItem) : Occurrence :=
  ⟨i.file, i.line, i.column⟩

/-- One iteration of `mergeResults`' loop: create the map entry (from the
current item's `hasParams || false` / `params || []`) if the key is new, then
push the occurrence onto the entry.  The insertion-ordered `Map` is modelled
by the list of its values. -/
def mergeInsert (acc : List MergedExtractionItem) (item : ExtractionItem) :
    List MergedExtractionItem :=
  let acc' :=
    if acc.any (fun m => m.key == item.key) then acc
    else acc ++ [{ key := item.key, occurrences := [],
                   hasParams := item.hasParams, params := item.params }]
  acc'.map (fun m =>
    if m.key == item.key then
      { m with occurrences := m.occurrences ++ [itemOccurrence item] }
    else m)

/-- extractor.ts `mergeResults`. -/
def mergeResults (results : List ExtractionItem) : List MergedExtractionItem :=
  results.foldl mergeInsert []

/-- The closed form `mergeResults` satisfies: one entry per distinct key in
first-occurrence order; occurrences of a key in input order; `hasParams` and
`params` from the first item of the group in input order. -/
def mergeResultsFirstItem (results : List ExtractionItem) :
    List MergedExtractionItem :=
  (jsSetDedup (results.map (·.key))).map (fun k =>
    { key := k
      occurrences := (results.filter (fun i => i.key == k)).map itemOccurrence
      hasParams := ((results.find? (fun i => i.key == k)).map (·.hasParams)).getD false
      params := ((results.find? (fun i => i.key == k)).map (·.params)).getD [] })

/-- The merge the specification describes: `hasParams`/`params` taken from the
first item of the group, in input order, whose `hasParams` is true — `false`
and empty when no item of the group set them. -/
def mergeResultsSpecFirstTrue (results : List ExtractionItem) :
    List MergedExtractionItem :=
  (jsSetDedup (results.map (·.key))).map (fun k =>
    { key := k
      occurrences := (results.filter (fun i => i.key == k)).map itemOccurrence
      hasParams := results.any (fun i => i.key == k && i.hasParams)
      params := ((results.find? (fun i => i.key == k && i.hasParams)).map (·.params)).getD [] })

/-! ## The call-site walker (parser.ts `extractFromAST`) -/

/-- A property of a nested object literal (`prop.value.properties` entry):
whether its key is an `Identifier` node, and the identifier name. -/
structure ObjInnerProp where
  keyIsIdent : Bool
  keyName : String
  deriving Repr, DecidableEq

/-- A property of an `ObjectExpression` argument: key shape/name, whether the
value is itself an `ObjectExpression`, and in that case its properties. -/
structure ObjProperty where
  keyIsIdent : Bool
  keyName : String
  valueIsObject : Bool
  valueProps : List ObjInnerProp
  deriving Repr, DecidableEq

/-- parser.ts lines 353-366: walk an `ObjectExpression`'s properties for a
`values` key whose value is an object literal and record each identifier
property name (`params[p.key.name] = true`; a JS record keeps the first
insertion position of a repeated key, and an empty name is falsy). -/
def collectValuesParams (props : List ObjProperty) : List String :=
  jsSetDedup (props.foldl (fun acc p =>
    if p.keyIsIdent && p.keyName == "values" && p.valueIsObject then
      acc ++ (p.valueProps.filter (fun q => q.keyIsIdent && q.keyName != "")).map (·.keyName)
    else acc) [])

/-- A branch (`consequent`/`alternate`) of a `ConditionalExpression` first
argument: the walker only distinguishes `StringLiteral`/`Literal` nodes
(carrying a value) from every other node shape. -/
inductive CondBranch
  | lit (v : String)
  | nonlit
  deriving Repr, DecidableEq

/-- The argument node shapes `extractFromAST` distinguishes. -/
inductive BabelArg
  | stringLit (v : String)
  | templateLit (raw : String) (numExprs : Nat)
  | objectExpr (props : List ObjProperty)
  | conditional (consequentB alternateB : CondBranch)
  | otherArg
  deriving Repr, DecidableEq

/-- The callee shapes `extractFromAST` distinguishes: a direct identifier, a
member access (with the shape and name of its trailing property), anything
else. -/
inductive Callee
  | identC (name : String)
  | memberC (propIsIdent : Bool) (propName : String)
  | otherC
  deriving Repr, DecidableEq

/-- A `CallExpression` node as seen by the walker. -/
structure CallNode where
  callee : Callee
  args : List BabelArg
  loc : Option (Nat × Nat)
  deriving Repr, DecidableEq

/-- Callee-name resolution (parser.ts lines 318-323): identifier name, or the
trailing identifier property of a member expression. -/
def resolveCalleeName : Callee → Option String
  | .identC n => some n
  | .memberC isId p => if isId then some p else none
  | .otherC => none

/-- A classified argument of a qualifying call. -/
inductive CallArgInfo
  | strArg (value : String) (index : Nat)
  | templateArg (value : String) (index : Nat)
  | objectArg (value : List String) (index : Nat)
  deriving Repr, DecidableEq

/-- `callInfo.arguments[0].type === 'object'`. -/
def firstArgIsObject : List CallArgInfo → Bool
  | .objectArg _ _ :: _ => true
  | _ => false

/-- A qualifying i18n call record. -/
structure I18nCall where
  name : String
  args : List CallArgInfo
  loc : Option (Nat × Nat)
  deriving Repr, DecidableEq

/-- The call records emitted for one `ConditionalExpression` branch: a
literal branch becomes a call whose argument list is just that string. -/
def condBranchCalls (name : String) (loc : Option (Nat × Nat)) (idx : Nat) :
    CondBranch → List I18nCall
  | .lit v => [⟨name, [.strArg v idx], loc⟩]
  | .nonlit => []

/-- The argument loop of `extractFromAST` (parser.ts lines 337-400): classify
each argument; a `ConditionalExpression` emits one call per literal branch and
returns from the visitor immediately; otherwise the accumulated call is kept
when it has arguments and the first is not an object literal. -/
def processArgsLoop (name : String) (loc : Option (Nat × Nat)) :
    List BabelArg → Nat → List CallArgInfo → List I18nCall
  | [], _, acc =>
    if acc.length > 0 && !(firstArgIsObject acc) then [⟨name, acc, loc⟩] else []
  | a :: rest, idx, acc =>
    match a with
    | .stringLit v => processArgsLoop name loc rest (idx + 1) (acc ++ [.strArg v idx])
    | .templateLit raw n =>
      if n == 0 then processArgsLoop name loc rest (idx + 1) (acc ++ [.templateArg raw idx])
      else processArgsLoop name loc rest (idx + 1) acc
    | .objectExpr props =>
      processArgsLoop name loc rest (idx + 1) (acc ++ [.objectArg (collectValuesParams props) idx])
    | .conditional cq alt =>
      condBranchCalls name loc idx cq ++ condBranchCalls name loc idx alt
    | .otherArg => processArgsLoop name loc rest (idx + 1) acc

/-- The `CallExpression` visitor applied to one node: resolve the callee name
(`name || null`, so an empty name never qualifies), require membership in the
target names, then run the argument loop. -/
def processCallNode (functionNames : List String) (node : CallNode) :
    List I18nCall :=
  match resolveCalleeName node.callee with
  | none => []
  | some n =>
    if n == "" || !(functionNames.contains n) then []
    else processArgsLoop n node.loc node.args 0 []

/-- parser.ts `extractFromAST`: the AST is modelled by its call-expression
nodes in traversal order; `functionNames` defaults to `['$t', 't']`. -/
def extractFromAST (nodes : List CallNode) (functionNames : Option (List String)) :
    List I18nCall :=
  let names := functionNames.getD ["$t", "t"]
  nodes.flatMap (processCallNode names)

/-! ## Building items from calls (extractor.ts `extract` / `extractFromTypescript`) -/

/-- `call.loc?.start?.line || 1` (`|| 1` also normalises a zero). -/
def locLine : Option (Nat × Nat) → Nat
  | some l => if l.1 = 0 then 1 else l.1
  | none => 1

/-- `call.loc?.start?.column || 1`. -/
def locColumn : Option (Nat × Nat) → Nat
  | some l => if l.2 = 0 then 1 else l.2
  | none => 1

/-- `key.includes('{') && key.includes('}')` (on the character list, so that
it evaluates by kernel reduction). -/
def keyBraces (key : String) : Bool :=
  key.data.contains '\x7b' && key.data.contains '\x7d'

/-- The second-argument check `paramsArg && paramsArg.type === 'object'`. -/
def secondObjectParams (args : List CallArgInfo) : Option (List String) :=
  match (args[1]? : Option CallArgInfo) with
  | some (.objectArg ps _) => some ps
  | _ => none

/-- extractor.ts `extract` lines 73-98, one call: strings and static templates
become items; a non-empty parameter object sets `hasParams` with params
scanned from the key; otherwise a key containing `{` and `}` does. -/
def itemFromCallJS (file : String) (call : I18nCall) : Option ExtractionItem :=
  let mk : String → ExtractionItem := fun v =>
    let base : ExtractionItem :=
      { key := v, file := file, line := locLine call.loc, column := locColumn call.loc }
    match secondObjectParams call.args with
    | some ps =>
      if ps.length > 0 then
        { base with hasParams := true, params := extractParamsFromKey v }
      else base
    | none =>
      if keyBraces v then
        { base with hasParams := true, params := extractParamsFromKey v }
      else base
  match call.args.head? with
  | some (.strArg v _) => some (mk v)
  | some (.templateArg v _) => some (mk v)
  | _ => none

/-- extractor.ts `extractFromTypescript` lines 120-144, one call: identical to
the JS loop except that a non-empty parameter object contributes its own
key names as `params`. -/
def itemFromCallTS (file : String) (call : I18nCall) : Option ExtractionItem :=
  let mk : String → ExtractionItem := fun v =>
    let base : ExtractionItem :=
      { key := v, file := file, line := locLine call.loc, column := locColumn call.loc }
    match secondObjectParams call.args with
    | some ps =>
      if ps.length > 0 then { base with hasParams := true, params := ps }
      else base
    | none =>
      if keyBraces v then
        { base with hasParams := true, params := extractParamsFromKey v }
      else base
  match call.args.head? with
  | some (.strArg v _) => some (mk v)
  | some (.templateArg v _) => some (mk v)
  | _ => none

/-- The item-building loop of `extract` over all calls. -/
def extractItemsJS (calls : List I18nCall) (file : String) : List ExtractionItem :=
  calls.filterMap (itemFromCallJS file)

/-- The item-building loop of `extractFromTypescript` over all calls. -/
def extractItemsTS (calls : List I18nCall) (file : String) : List ExtractionItem :=
  calls.filterMap (itemFromCallTS file)

/-! ## The regex battery (parser.ts `parseTemplate`, extractor.ts `extractWithRegex`)

Each concrete pattern of the source is modelled by a deterministic scanner
that follows the engine's backtracking behaviour for that pattern.  Matchers
return the raw text of capturing group 1 together with the total number of
characters consumed by the whole match. -/

/-- Consume a literal pattern (a sequence of `\`-escaped literal characters in
the regex source), returning its length. -/
def litPrefix : List Char → List Char → Option Nat
  | [], _ => some 0
  | p :: ps, c :: cs => if c = p then (litPrefix ps cs).map (· + 1) else none
  | _ :: _, [] => none

/-- Length consumed by a greedy `\s*`. -/
def wsCount (cs : List Char) : Nat :=
  (cs.takeWhile isJsWs).length

/-- The greedy escape-tolerant capturing run `(?:[^q\\]|\\.)*` for a concrete
quote `q`: any character other than the quote and the backslash, or a
backslash followed by any character except a line terminator (`.` does not
match `\n`/`\r`).  Deterministic: the run always stops at the first unescaped
quote (or at a character no alternative matches). -/
def escRun (q : Char) : List Char → List Char × Nat
  | [] => ([], 0)
  | '\\' :: c :: rest =>
    if c = '\n' || c = '\r' then ([], 0)
    else
      let (cap, n) := escRun q rest
      ('\\' :: c :: cap, n + 2)
  | c :: rest =>
    if c = q || c = '\\' then ([], 0)
    else
      let (cap, n) := escRun q rest
      (c :: cap, n + 1)

/-- `\b` before a word character: satisfied at the start of input or after a
non-word character. -/
def boundaryOk : Option Char → Bool
  | none => true
  | some c => !(isWordChar c)

/-- Shape of a template-battery call pattern: optional `\{\{\s*` or `\{`
opener, `$t(` versus `t(` (the latter with a `\b` in one family), the quote
character, and the closing shape after `\)` (`0` bare, `1` a `\}`, `2` a
`\s*\}\}`). -/
structure CallPat where
  doubleOpen : Bool := false
  singleOpen : Bool := false
  dollar : Bool := false
  boundary : Bool := false
  q : Char
  closeKind : Nat
  deriving Repr, DecidableEq

/-- Match the closing shape: `\)`, `\)\}`, or `\)\s*\}\}`. -/
def matchTailClose (k : Nat) (cs : List Char) : Option Nat :=
  match cs with
  | ')' :: rest =>
    if k = 0 then some 1
    else if k = 1 then
      match rest with
      | '\x7d' :: _ => some 2
      | _ => none
    else
      let w := wsCount rest
      match litPrefix ['\x7d', '\x7d'] (rest.drop w) with
      | some _ => some (1 + w + 2)
      | none => none
  | _ => none

/-- The lazy run of `(?:,[\s\S]*?)?` after its comma: grow one character at a
time until the closing shape matches. -/
def lazyCommaTail (k : Nat) : List Char → Option Nat
  | [] => none
  | c :: rest =>
    match matchTailClose k (c :: rest) with
    | some n => some n
    | none => (lazyCommaTail k rest).map (· + 1)

/-- After the closing quote: `\s*` then the greedy-optional comma group then
the closing shape.  The comma group and the bare close start with distinct
characters, so the greedy option is deterministic. -/
def matchAfterQuote (k : Nat) (cs : List Char) : Option Nat :=
  let w := wsCount cs
  match cs.drop w with
  | ',' :: rest => (lazyCommaTail k rest).map (fun n => w + 1 + n)
  | other => (matchTailClose k other).map (w + ·)

/-- Matcher for one call pattern of the `parseTemplate` battery. -/
def matchCallPat (p : CallPat) (prev : Option Char) (cs : List Char) :
    Option (List Char × Nat) :=
  if p.boundary && !(boundaryOk prev) then none
  else
    match
      (if p.doubleOpen then
        match litPrefix ['\x7b', '\x7b'] cs with
        | some n => some (n + wsCount (cs.drop n))
        | none => none
      else if p.singleOpen then litPrefix ['\x7b'] cs
      else some 0) with
    | none => none
    | some n0 =>
      let rest0 := cs.drop n0
      match litPrefix (if p.dollar then ['$', 't', '('] else ['t', '(']) rest0 with
      | none => none
      | some n1 =>
        let rest1 := rest0.drop n1
        let w1 := wsCount rest1
        match rest1.drop w1 with
        | c :: rest2 =>
          if c = p.q then
            let (cap, nc) := escRun p.q rest2
            match rest2.drop nc with
            | c2 :: rest3 =>
              if c2 = p.q then
                match matchAfterQuote p.closeKind rest3 with
                | some n2 => some (cap, n0 + n1 + w1 + 1 + nc + 1 + n2)
                | none => none
              else none
            | [] => none
          else none
        | [] => none

/-- Matcher for `/\{#t\s+q(cap)q\}/` (quote `q`). -/
def matchHashPat (q : Char) (_prev : Option Char) (cs : List Char) :
    Option (List Char × Nat) :=
  match litPrefix ['\x7b', '#', 't'] cs with
  | none => none
  | some n0 =>
    let rest0 := cs.drop n0
    let w := wsCount rest0
    if w = 0 then none
    else
      match rest0.drop w with
      | c :: rest1 =>
        if c = q then
          let (cap, nc) := escRun q rest1
          match rest1.drop nc with
          | c2 :: '\x7d' :: _ => if c2 = q then some (cap, n0 + w + 1 + nc + 2) else none
          | _ => none
        else none
      | [] => none

/-- Matcher for the directive-attribute patterns `v-t="'cap'"` and
`v-t='"cap"'` (outer quote, inner quote). -/
def matchVtPat (outerQ innerQ : Char) (_prev : Option Char) (cs : List Char) :
    Option (List Char × Nat) :=
  match litPrefix ['v', '-', 't', '=', outerQ, innerQ] cs with
  | none => none
  | some n0 =>
    let rest0 := cs.drop n0
    let (cap, nc) := escRun innerQ rest0
    match rest0.drop nc with
    | c1 :: c2 :: _ =>
      if c1 = innerQ && c2 = outerQ then some (cap, n0 + nc + 2) else none
    | _ => none

/-- Worker of `scanAll`: `skip` counts characters of the current match still
to pass over before the next attempt (matches of a global regex never
overlap: the engine resumes at `lastIndex`). -/
def scanAllGo (f : Option Char → List Char → Option (List Char × Nat)) :
    Option Char → Nat → Nat → List Char → List (Nat × List Char)
  | _, _, _, [] => []
  | prev, pos, skip, c :: rest =>
    match skip with
    | n + 1 => scanAllGo f (some c) (pos + 1) n rest
    | 0 =>
      match f prev (c :: rest) with
      | some (cap, n) =>
        (pos, cap) :: scanAllGo f (some c) (pos + 1) (max n 1 - 1) rest
      | none => scanAllGo f (some c) (pos + 1) 0 rest

/-- The `exec` loop of a global regex: try the matcher at each position; on a
match, record `(match.index, capture)` and resume at `lastIndex` (a zero-width
match would advance one position — unreachable for these patterns). -/
def scanAll (f : Option Char → List Char → Option (List Char × Nat))
    (prev : Option Char) (pos : Nat) (cs : List Char) : List (Nat × List Char) :=
  scanAllGo f prev pos 0 cs

/-- The nineteen patterns of `parseTemplate` (parser.ts lines 222-260), in
source order. -/
def templateMatchers :
    List (Option Char → List Char → Option (List Char × Nat)) :=
  [ matchCallPat { singleOpen := true, dollar := true, q := '\x27', closeKind := 1 }
  , matchCallPat { singleOpen := true, dollar := true, q := '"', closeKind := 1 }
  , matchCallPat { singleOpen := true, dollar := true, q := '\x60', closeKind := 1 }
  , matchCallPat { singleOpen := true, q := '\x27', closeKind := 1 }
  , matchCallPat { singleOpen := true, q := '"', closeKind := 1 }
  , matchCallPat { singleOpen := true, q := '\x60', closeKind := 1 }
  , matchHashPat '\x27'
  , matchHashPat '"'
  , matchCallPat { dollar := true, q := '\x27', closeKind := 0 }
  , matchCallPat { dollar := true, q := '"', closeKind := 0 }
  , matchCallPat { dollar := true, q := '\x60', closeKind := 0 }
  , matchCallPat { boundary := true, q := '\x27', closeKind := 0 }
  , matchCallPat { boundary := true, q := '"', closeKind := 0 }
  , matchCallPat { boundary := true, q := '\x60', closeKind := 0 }
  , matchCallPat { doubleOpen := true, dollar := true, q := '\x27', closeKind := 2 }
  , matchCallPat { doubleOpen := true, dollar := true, q := '"', closeKind := 2 }
  , matchCallPat { doubleOpen := true, dollar := true, q := '\x60', closeKind := 2 }
  , matchVtPat '"' '\x27'
  , matchVtPat '\x27' '"'
  ]

/-- parser.ts `parseTemplate`: run every pattern over the template in source
order, unescape/collapse/trim each capture, deduplicate keeping first
occurrences. -/
def parseTemplate (template : String) : List String :=
  let cs := template.data
  let results := templateMatchers.foldl
    (fun acc m => acc ++ (scanAll m none 0 cs).map (fun r => cleanTemplateCapture r.2)) []
  jsSetDedup results

/-! ### extractor.ts `extractWithRegex` -/

/-- The quote class `['"\x60]`. -/
def quoteClass (c : Char) : Bool :=
  c = '\x27' || c = '"' || c = '\x60'

/-- The lazy run of `\}` inside `(?:,[\s\S]*?\{[\s\S]*?\})`: grow until a
`\}` immediately followed by `\)`. -/
def matchBraceClose : List Char → Option Nat
  | [] => none
  | '\x7d' :: ')' :: _ => some 2
  | _ :: rest => (matchBraceClose rest).map (· + 1)

/-- The lazy run before `\{` inside the comma group: at each `\{` try the
closing part, growing past it on failure. -/
def matchBraceSearch : List Char → Option Nat
  | [] => none
  | '\x7b' :: rest =>
    match matchBraceClose rest with
    | some n => some (n + 1)
    | none => (matchBraceSearch rest).map (· + 1)
  | _ :: rest => (matchBraceSearch rest).map (· + 1)

/-- After the closing quote of `extractWithRegex`'s call patterns: the greedy
optional group `(?:,[\s\S]*?\{[\s\S]*?\})?` then `\)`. -/
def regexCodeTail (cs : List Char) : Option Nat :=
  match cs with
  | ',' :: rest => (matchBraceSearch rest).map (· + 1)
  | ')' :: _ => some 1
  | _ => none

/-- The lazy capture `([\s\S]*?)` of the call patterns: stop at the first
position where a quote-class character is followed by a matching tail,
growing past it (quote included) otherwise. -/
def lazyQuoteCap : List Char → Option (List Char × Nat)
  | [] => none
  | c :: rest =>
    if quoteClass c then
      match regexCodeTail rest with
      | some n => some ([], 1 + n)
      | none => (lazyQuoteCap rest).map (fun r => (c :: r.1, r.2 + 1))
    else (lazyQuoteCap rest).map (fun r => (c :: r.1, r.2 + 1))

/-- The lazy capture of `/\{#t\s+['"\x60]([\s\S]*?)['"\x60]\}/`: stop at the
first quote-class character immediately followed by `\}`. -/
def lazyQuoteCapHash : List Char → Option (List Char × Nat)
  | [] => none
  | c :: rest =>
    if quoteClass c then
      match rest with
      | '\x7d' :: _ => some ([], 2)
      | _ => (lazyQuoteCapHash rest).map (fun r => (c :: r.1, r.2 + 1))
    else (lazyQuoteCapHash rest).map (fun r => (c :: r.1, r.2 + 1))

/-- Matcher for `/\$t\(\s*['"\x60]([\s\S]*?)['"\x60](?:,[\s\S]*?\{[\s\S]*?\})?\)/`. -/
def matchRegexP1 (_prev : Option Char) (cs : List Char) : Option (List Char × Nat) :=
  match litPrefix ['$', 't', '('] cs with
  | none => none
  | some n0 =>
    let rest0 := cs.drop n0
    let w := wsCount rest0
    match rest0.drop w with
    | c :: rest1 =>
      if quoteClass c then (lazyQuoteCap rest1).map (fun r => (r.1, n0 + w + 1 + r.2))
      else none
    | [] => none

/-- Matcher for `/\bt\(\s*['"\x60]([\s\S]*?)['"\x60](?:,[\s\S]*?\{[\s\S]*?\})?\)/`. -/
def matchRegexP2 (prev : Option Char) (cs : List Char) : Option (List Char × Nat) :=
  if !(boundaryOk prev) then none
  else
    match litPrefix ['t', '('] cs with
    | none => none
    | some n0 =>
      let rest0 := cs.drop n0
      let w := wsCount rest0
      match rest0.drop w with
      | c :: rest1 =>
        if quoteClass c then (lazyQuoteCap rest1).map (fun r => (r.1, n0 + w + 1 + r.2))
        else none
      | [] => none

/-- Matcher for `/\{#t\s+['"\x60]([\s\S]*?)['"\x60]\}/`. -/
def matchRegexP3 (_prev : Option Char) (cs : List Char) : Option (List Char × Nat) :=
  match litPrefix ['\x7b', '#', 't'] cs with
  | none => none
  | some n0 =>
    let rest0 := cs.drop n0
    let w := wsCount rest0
    if w = 0 then none
    else
      match rest0.drop w with
      | c :: rest1 =>
        if quoteClass c then (lazyQuoteCapHash rest1).map (fun r => (r.1, n0 + w + 1 + r.2))
        else none
      | [] => none

/-- extractor.ts `getLineColumn`: 1-based line and column of a character
index. -/
def getLineColumn (cs : List Char) (idx : Nat) : Nat × Nat :=
  let pre := cs.take idx
  (1 + pre.count '\n', (pre.reverse.takeWhile (fun c => c ≠ '\n')).length + 1)

/-- One item of `extractWithRegex`: collapse-and-trim the raw capture (no
unescaping on this path), attach position, and the brace-derived params. -/
def regexItem (code : List Char) (file : String) (r : Nat × List Char) :
    ExtractionItem :=
  let key := cleanupCapture r.2
  let lc := getLineColumn code r.1
  let base : ExtractionItem :=
    { key := key, file := file, line := lc.1, column := lc.2 }
  if keyBraces key then
    { base with hasParams := true, params := extractParamsFromKey key }
  else base

/-- extractor.ts `extractWithRegex`: the three fallback patterns in source
order, each run globally over the code. -/
def extractWithRegex (code file : String) : List ExtractionItem :=
  let cs := code.data
  [matchRegexP1, matchRegexP2, matchRegexP3].foldl
    (fun acc m => acc ++ (scanAll m none 0 cs).map (regexItem cs file)) []

/-! ## Extraction entry points (extractor.ts `extract`, `extractFromTypescript`,
`extractFromTemplate`, `extractFromDirectory`) -/

/-- The outcome of `parseJavaScript(code, {errorRecovery: true})`, which is
external to this repository: a clean tree, a recovered partial tree with a
non-empty diagnostics list, or a hard failure (in error-recovery mode the
adapter returns `{ast: null, errors: [...]}`; `extract` then reaches its
`catch` through the traversal of the non-tree value). -/
inductive ParseOutcome
  | success (ast : List CallNode)
  | recovered (ast : List CallNode) (errors : List String)
  | hardFail (errors : List String)
  deriving Repr, DecidableEq

/-- extractor.ts `extract` lines 56-107.  The first guard mirrors
`errors && errors.length > 0 && fallbackToRegex`; on a hard failure the
`catch` block falls back or rethrows.  With diagnostics and no fallback the
code proceeds with the partial tree. -/
def extract (po : ParseOutcome) (code file : String) (fallbackToRegex : Bool)
    (functionNames : Option (List String)) : Except String (List ExtractionItem) :=
  match po with
  | .success ast => .ok (extractItemsJS (extractFromAST ast functionNames) file)
  | .recovered ast errs =>
    if errs.length > 0 && fallbackToRegex then .ok (extractWithRegex code file)
    else .ok (extractItemsJS (extractFromAST ast functionNames) file)
  | .hardFail errs =>
    if errs.length > 0 && fallbackToRegex then .ok (extractWithRegex code file)
    else if fallbackToRegex then .ok (extractWithRegex code file)
    else .error "ParseError"

/-- The outcome of `parseTypeScript`, also external: a tree, or a throw that
sends `extractFromTypescript` to its catch (which re-runs `extract` with
`fallbackToRegex: true`, whose own parse outcome is the payload). -/
inductive TsParseOutcome
  | tsSuccess (ast : List CallNode)
  | tsFailure (jsOutcome : ParseOutcome)
  deriving Repr, DecidableEq

/-- extractor.ts `extractFromTypescript` lines 112-152. -/
def extractFromTypescript (po : TsParseOutcome) (code file : String)
    (functionNames : Option (List String)) : Except String (List ExtractionItem) :=
  match po with
  | .tsSuccess ast => .ok (extractItemsTS (extractFromAST ast functionNames) file)
  | .tsFailure jsPo => extract jsPo code file true functionNames

/-- extractor.ts `extractFromTemplate` lines 222-234: the deduplicated keys of
`parseTemplate`, the `i`-th at synthetic position line `1 + i`, column 1. -/
def extractFromTemplate (template file : String) : List ExtractionItem :=
  (parseTemplate template).enum.map (fun p =>
    let base : ExtractionItem :=
      { key := p.2, file := file, line := 1 + p.1, column := 1 }
    if keyBraces p.2 then
      { base with hasParams := true, params := extractParamsFromKey p.2 }
    else base)

/-! ### The directory orchestrator -/

/-- The outcome of `extractFromFile` for one enumerated file (file I/O and
dispatch are external): the extracted items, or a thrown error. -/
inductive FileOutcome
  | okF (items : List ExtractionItem)
  | errF (msg : String)
  deriving Repr, DecidableEq

/-- A `{current, total, file}` record passed to `onProgress`. -/
structure ProgressEvent where
  current : Nat
  total : Nat
  file : String
  deriving Repr, DecidableEq

/-- Whether a file's processing succeeded. -/
def fileOk : String × FileOutcome → Bool
  | (_, .okF _) => true
  | (_, .errF _) => false

/-- extractor.ts `extractFromDirectory` lines 284-301, given the enumerated
files and each one's outcome: push results and fire the progress callback on
success (`processed++` then `onProgress`); catch, log and continue on
failure.  Returns the aggregated items and the emitted progress events. -/
def extractFromDirectory (files : List (String × FileOutcome)) :
    List ExtractionItem × List ProgressEvent :=
  let total := files.length
  let final := files.foldl
    (fun (acc : List ExtractionItem × List ProgressEvent × Nat) f =>
      match f.2 with
      | .okF items =>
        (acc.1 ++ items, acc.2.1 ++ [⟨acc.2.2 + 1, total, f.1⟩], acc.2.2 + 1)
      | .errF _ => acc)
    ([], [], 0)
  (final.1, final.2.1)

/-- The progress events the code emits: one per successful file, numbered by
the running count of successes, with the enumeration size as `total`. -/
def progressEventsSpec (total : Nat) : Nat → List (String × FileOutcome) → List ProgressEvent
  | _, [] => []
  | n, (f, .okF _) :: rest => ⟨n + 1, total, f⟩ :: progressEventsSpec total (n + 1) rest
  | n, (_, .errF _) :: rest => progressEventsSpec total n rest

/-- The items aggregated by `extractFromDirectory`: the concatenation of the
successful files' items in enumeration order. -/
def dirResultsSpec (files : List (String × FileOutcome)) : List ExtractionItem :=
  (files.filterMap (fun f =>
    match f.2 with
    | .okF items => some items
    | .errF _ => none)).flatten

/-- The keys contributed by one conditional branch (for stating the ternary
extraction property). -/
def condLits : CondBranch → List String
  | .lit v => [v]
  | .nonlit => []

/-- The invariant claimed for every `ExtractionItem`: `hasParams` iff
`params` non-empty iff the key contains at least one brace-delimited token. -/
def itemParamsInvariant (i : ExtractionItem) : Prop :=
  (i.hasParams = true ↔ i.params ≠ []) ∧
    (i.params ≠ [] ↔ extractParamsFromKey i.key ≠ [])

/-- The weakened invariant the code guarantees: non-empty `params` forces
`hasParams`, and an unset `hasParams` comes with empty `params`. -/
def itemParamsWeakInv (i : ExtractionItem) : Prop :=
  (i.params ≠ [] → i.hasParams = true) ∧ (i.hasParams = false → i.params = [])

/-! ## Lemmas about `jsSetDedup` -/

theorem jsSetDedup_go_mem (l : List String) :
    ∀ (acc : List String) (k : String),
      k ∈ l.foldl (fun acc k => if acc.contains k then acc else acc ++ [k]) acc ↔
        k ∈ acc ∨ k ∈ l := by
  induction l with
  | nil => simp
  | cons a t ih =>
    intro acc k
    simp only [List.foldl_cons]
    by_cases h : acc.contains a = true
    · simp only [h, if_pos]
      rw [ih]
      simp only [List.mem_cons]
      constructor
      · rintro (h' | h')
        · exact Or.inl h'
        · exact Or.inr (Or.inr h')
      · rintro (h' | h' | h')
        · exact Or.inl h'
        · subst h'
          exact Or.inl (by simpa using h)
        · exact Or.inr h'
    · simp only [h, if_neg, Bool.false_eq_true, not_false_iff]
      rw [ih]
      simp only [List.mem_append, List.mem_singleton, List.mem_cons]
      tauto

theorem mem_jsSetDedup {l : List String} {k : String} :
    k ∈ jsSetDedup l ↔ k ∈ l := by
  rw [jsSetDedup, jsSetDedup_go_mem]
  simp

theorem jsSetDedup_go_nodup (l : List String) :
    ∀ (acc : List String), acc.Nodup →
      (l.foldl (fun acc k => if acc.contains k then acc else acc ++ [k]) acc).Nodup := by
  induction l with
  | nil => intro acc h; simpa using h
  | cons a t ih =>
    intro acc h
    simp only [List.foldl_cons]
    by_cases hc : acc.contains a = true
    · simp only [hc, if_pos]
      exact ih acc h
    · simp only [hc, if_neg, Bool.false_eq_true, not_false_iff]
      refine ih _ ?_
      simp only [List.nodup_append, List.nodup_singleton, List.disjoint_singleton]
      refine ⟨h, trivial, ?_⟩
      simpa using hc

theorem jsSetDedup_nodup (l : List String) : (jsSetDedup l).Nodup :=
  jsSetDedup_go_nodup l [] List.nodup_nil

theorem jsSetDedup_append_singleton (l : List String) (k : String) :
    jsSetDedup (l ++ [k]) =
      if (jsSetDedup l).contains k then jsSetDedup l else jsSetDedup l ++ [k] := by
  simp [jsSetDedup, List.foldl_append]

/-! ## Claim C1: `mergeResults` -/

theorem find?_isSome_of_mem_keys {rs : List ExtractionItem} {k : String}
    (h : k ∈ rs.map (·.key)) : (rs.find? (fun i => i.key == k)).isSome := by
  rw [List.find?_isSome]
  obtain ⟨i, hi, hk⟩ := List.mem_map.mp h
  exact ⟨i, hi, by simp [hk]⟩

theorem filter_key_eq_nil {rs : List ExtractionItem} {k : String}
    (h : k ∉ rs.map (·.key)) : rs.filter (fun i => i.key == k) = [] := by
  rw [List.filter_eq_nil_iff]
  intro i hi
  simp only [beq_iff_eq]
  intro hk
  exact h (List.mem_map.mpr ⟨i, hi, hk⟩)

theorem find?_key_eq_none {rs : List ExtractionItem} {k : String}
    (h : k ∉ rs.map (·.key)) : rs.find? (fun i => i.key == k) = none := by
  rw [List.find?_eq_none]
  intro i hi
  simp only [beq_iff_eq]
  intro hk
  exact h (List.mem_map.mpr ⟨i, hi, hk⟩)

theorem mergeInsert_firstItem (rs : List ExtractionItem) (r : ExtractionItem) :
    mergeInsert (mergeResultsFirstItem rs) r = mergeResultsFirstItem (rs ++ [r]) := by
  classical
  set K := jsSetDedup (rs.map (·.key)) with hK
  have hKmem : ∀ k, k ∈ K ↔ k ∈ rs.map (·.key) := fun k => mem_jsSetDedup
  -- the entry functions before and after appending r
  set f : String → MergedExtractionItem := fun k =>
    { key := k
      occurrences := (rs.filter (fun i => i.key == k)).map itemOccurrence
      hasParams := ((rs.find? (fun i => i.key == k)).map (·.hasParams)).getD false
      params := ((rs.find? (fun i => i.key == k)).map (·.params)).getD [] } with hf
  set g : String → MergedExtractionItem := fun k =>
    { key := k
      occurrences := ((rs ++ [r]).filter (fun i => i.key == k)).map itemOccurrence
      hasParams := (((rs ++ [r]).find? (fun i => i.key == k)).map (·.hasParams)).getD false
      params := (((rs ++ [r]).find? (fun i => i.key == k)).map (·.params)).getD [] } with hg
  have hfirst : mergeResultsFirstItem rs = K.map f := rfl
  have hall : mergeResultsFirstItem (rs ++ [r]) =
      (jsSetDedup ((rs ++ [r]).map (·.key))).map g := rfl
  have hmapkeys : (rs ++ [r]).map (·.key) = rs.map (·.key) ++ [r.key] := by simp
  -- equality of entries away from r.key
  have hRest : ∀ k, k ≠ r.key → g k = f k := by
    intro k hk
    simp only [hg, hf]
    have hfilter : (rs ++ [r]).filter (fun i => i.key == k) =
        rs.filter (fun i => i.key == k) := by
      rw [List.filter_append]
      have hrk : (r.key == k) = false := by simp [Ne.symm hk]
      have : [r].filter (fun i => i.key == k) = [] := by
        simp [List.filter, hrk]
      rw [this, List.append_nil]
    have hfind : (rs ++ [r]).find? (fun i => i.key == k) =
        rs.find? (fun i => i.key == k) := by
      rw [List.find?_append]
      cases hfr : rs.find? (fun i => i.key == k) with
      | some v => rfl
      | none =>
        simp only [Option.none_or]
        have hrk : (r.key == k) = false := by simp [Ne.symm hk]
        simp [List.find?, hrk]
    rw [hfilter, hfind]
  -- the `any` test of mergeInsert over the mapped entries
  have hany : (K.map f).any (fun m => m.key == r.key) = K.contains r.key := by
    induction K with
    | nil => rfl
    | cons a t iht =>
      simp only [List.map_cons, List.any_cons, List.contains_cons, iht]
      congr 1
      show (a == r.key) = (r.key == a)
      by_cases h : a = r.key
      · simp [h]
      · simp [h, Ne.symm h]
  -- entry update at the key of r
  have hUpd : ∀ k, k ∈ rs.map (·.key) → k = r.key →
      { f k with occurrences := (f k).occurrences ++ [itemOccurrence r] } = g k := by
    intro k hkmem hk
    have hsome := find?_isSome_of_mem_keys hkmem
    obtain ⟨v, hv⟩ := Option.isSome_iff_exists.mp hsome
    have hfind : (rs ++ [r]).find? (fun i => i.key == k) =
        rs.find? (fun i => i.key == k) := by
      rw [List.find?_append, hv]
      rfl
    have hrk : (r.key == k) = true := by simp [hk]
    have hfilter : (rs ++ [r]).filter (fun i => i.key == k) =
        rs.filter (fun i => i.key == k) ++ [r] := by
      rw [List.filter_append]
      congr 1
      simp [List.filter, hrk]
    simp [hf, hg, hfilter, hv, List.filter, hrk]
  by_cases hmem : r.key ∈ rs.map (·.key)
  · -- existing key: the dedup list is unchanged and the entry at r.key grows
    have hcont : K.contains r.key = true := by
      have : r.key ∈ K := (hKmem r.key).mpr hmem
      simpa using this
    rw [hfirst, hall, hmapkeys, jsSetDedup_append_singleton]
    simp only [hcont, if_pos]
    rw [mergeInsert]
    simp only [hany, hcont, if_pos, List.map_map]
    apply List.map_congr_left
    intro k hkK
    by_cases hk : k = r.key
    · have hkeq : ((f k).key == r.key) = true := by simp [hf, hk]
      simp only [Function.comp_apply, hkeq, if_pos]
      exact hUpd k ((hKmem k).mp hkK) hk
    · have hkeq : ((f k).key == r.key) = false := by simp [hf, hk]
      simp only [Function.comp_apply, hkeq, Bool.false_eq_true, if_neg, not_false_iff]
      exact (hRest k hk).symm
  · -- new key: a fresh entry is appended
    have hcont : K.contains r.key = false := by
      rw [Bool.eq_false_iff]
      intro hcontra
      have : r.key ∈ K := by simpa using hcontra
      exact hmem ((hKmem r.key).mp this)
    rw [hfirst, hall, hmapkeys, jsSetDedup_append_singleton]
    simp only [hcont, Bool.false_eq_true, if_neg, not_false_iff, List.map_append,
      List.map_cons, List.map_nil]
    rw [mergeInsert]
    simp only [hany, hcont, Bool.false_eq_true, if_neg, not_false_iff, List.map_append,
      List.map_map, List.map_cons, List.map_nil]
    congr 1
    · apply List.map_congr_left
      intro k hkK
      have hk : k ≠ r.key := by
        intro h
        apply hmem
        rw [← h]
        exact (hKmem k).mp hkK
      have hkeq : ((f k).key == r.key) = false := by simp [hf, hk]
      simp only [Function.comp_apply, hkeq, Bool.false_eq_true, if_neg, not_false_iff]
      exact (hRest k hk).symm
    · have hfilter : (rs ++ [r]).filter (fun i => i.key == r.key) = [r] := by
        rw [List.filter_append, filter_key_eq_nil hmem]
        simp [List.filter]
      have hfind : (rs ++ [r]).find? (fun i => i.key == r.key) = some r := by
        rw [List.find?_append, find?_key_eq_none hmem]
        simp [List.find?]
      have hnone := find?_key_eq_none hmem
      have hnokey : ∀ a ∈ rs, ¬ a.key = r.key := by
        intro a ha hak
        exact hmem (List.mem_map.mpr ⟨a, ha, hak⟩)
      simp [hg, hfilter, hfind, hnone]
      exact hnokey

/-- Claim C1 (amended): `mergeResults` yields exactly one entry per distinct
key, keys in first-occurrence order; within each group the occurrences are
the key's items in input order; `hasParams` and `params` come from the first
item of the group in input order (its absent fields defaulting to
`false`/`[]`), not from the first item whose `hasParams` is true. -/
theorem mergeResults_characterization (results : List ExtractionItem) :
    mergeResults results = mergeResultsFirstItem results ∧
      ((mergeResults results).map (·.key)).Nodup := by
  have main : mergeResults results = mergeResultsFirstItem results := by
    induction results using List.reverseRecOn with
    | nil => rfl
    | append_singleton rs r ih =>
      have : mergeResults (rs ++ [r]) = mergeInsert (mergeResults rs) r := by
        simp [mergeResults, List.foldl_append]
      rw [this, ih, mergeInsert_firstItem]
  refine ⟨main, ?_⟩
  rw [main]
  have : (mergeResultsFirstItem results).map (·.key) =
      jsSetDedup (results.map (·.key)) := by
    rw [mergeResultsFirstItem, List.map_map]
    exact List.map_id _
  rw [this]
  exact jsSetDedup_nodup _

/-- Claim C1, counterexample: on two items with the same key where only the
second sets `hasParams`, `mergeResults` keeps `hasParams = false` and
`params = []` from the first item, while the claim demands the values of the
first item whose `hasParams` is true. -/
theorem mergeResults_not_firstTrue :
    mergeResults
        [⟨"k", "a", 1, 1, false, []⟩, ⟨"k", "b", 2, 2, true, ["x"]⟩] ≠
      mergeResultsSpecFirstTrue
        [⟨"k", "a", 1, 1, false, []⟩, ⟨"k", "b", 2, 2, true, ["x"]⟩] := by
  decide

/-! ## Claim C7: `getCoverage` -/

/-- Claim C7: `getCoverage` returns `total = |source|`, `translated` = the
count of source keys present in `target` with a value neither empty nor equal
to the key, `missing = total - translated`, `percentage` the half-up rounding
of `100·translated/total` (100 when `total = 0`); the percentage always lies
between 0 and 100 and is 100 on an empty source. -/
theorem getCoverage_spec (source target : Catalog) :
    (getCoverage source target).total = source.length ∧
    (getCoverage source target).translated =
      source.countP (fun kv =>
        match lookupC target kv.1 with
        | some tv => tv != kv.1 && tv != ""
        | none => false) ∧
    (getCoverage source target).missing =
      (getCoverage source target).total - (getCoverage source target).translated ∧
    (getCoverage source target).percentage =
      (if 0 < source.length then
        (200 * translatedCount source target + source.length) / (2 * source.length)
      else 100) ∧
    (getCoverage source target).percentage ≤ 100 ∧
    (∀ anyTarget : Catalog, (getCoverage [] anyTarget).percentage = 100) := by
  refine ⟨rfl, ?_, rfl, ?_, ?_, fun _ => rfl⟩
  · rw [List.countP_eq_length_filter]
    rfl
  · simp only [getCoverage, gt_iff_lt]
  · show (if 0 < source.length then _ else 100) ≤ 100
    by_cases h : 0 < source.length
    · simp only [h, if_pos]
      have htle : translatedCount source target ≤ source.length :=
        List.length_filter_le _ _
      have h2n : 0 < 2 * source.length := by omega
      have hlt : 200 * translatedCount source target + source.length <
          101 * (2 * source.length) := by omega
      have := (Nat.div_lt_iff_lt_mul h2n).mpr hlt
      omega
    · simp [h]

/-! ## Claim C10: `extractFromTemplate` synthetic positions -/

/-- Claim C10: `extractFromTemplate` reports the `i`-th distinct extracted
key (0-based, first-occurrence order, keys pairwise distinct) at line `i + 1`
and column 1, for every template text. -/
theorem extractFromTemplate_positions (template file : String) :
    (extractFromTemplate template file).map (·.key) = parseTemplate template ∧
    (extractFromTemplate template file).map (fun i => (i.line, i.column)) =
      (List.range (parseTemplate template).length).map (fun i => (1 + i, 1)) ∧
    (parseTemplate template).Nodup := by
  refine ⟨?_, ?_, jsSetDedup_nodup _⟩
  · rw [extractFromTemplate, List.map_map]
    have : ∀ p ∈ (parseTemplate template).enum,
        ((fun p : Nat × String =>
          let base : ExtractionItem :=
            { key := p.2, file := file, line := 1 + p.1, column := 1 }
          if keyBraces p.2 then
            { base with hasParams := true, params := extractParamsFromKey p.2 }
          else base) p).key = p.2 := by
      intro p _
      by_cases hc : keyBraces p.2 <;> simp [hc]
    calc (parseTemplate template).enum.map _ = (parseTemplate template).enum.map Prod.snd :=
          List.map_congr_left this
      _ = parseTemplate template := List.enum_map_snd _
  · rw [extractFromTemplate, List.map_map]
    have : ∀ p ∈ (parseTemplate template).enum,
        (fun i : ExtractionItem => (i.line, i.column))
          ((fun p : Nat × String =>
            let base : ExtractionItem :=
              { key := p.2, file := file, line := 1 + p.1, column := 1 }
            if keyBraces p.2 then
              { base with hasParams := true, params := extractParamsFromKey p.2 }
            else base) p) = (1 + p.1, 1) := by
      intro p _
      by_cases hc : keyBraces p.2 <;> simp [hc]
    calc (parseTemplate template).enum.map _
        = (parseTemplate template).enum.map (fun p => (1 + p.1, 1)) :=
          List.map_congr_left this
      _ = ((parseTemplate template).enum.map Prod.fst).map (fun i => (1 + i, 1)) := by
          rw [List.map_map]
          rfl
      _ = (List.range (parseTemplate template).length).map (fun i => (1 + i, 1)) := by
          rw [List.enum_map_fst]

/-! ## Claim C2: ternary first arguments -/

theorem itemFromCallJS_single_str (file n v : String) (i : Nat) (loc : Option (Nat × Nat)) :
    itemFromCallJS file ⟨n, [.strArg v i], loc⟩ =
      some (if keyBraces v then
        { key := v, file := file, line := locLine loc, column := locColumn loc,
          hasParams := true, params := extractParamsFromKey v }
      else { key := v, file := file, line := locLine loc, column := locColumn loc }) := by
  by_cases hc : keyBraces v <;> simp [itemFromCallJS, secondObjectParams, hc]

/-- Claim C2: a qualifying call whose first argument is a
ternary/conditional yields one item per string-literal branch (keys in
consequent-alternate order); in particular the two-literal `Yes`/`No` call
yields exactly those two items and the call with two non-literal branches
yields none. -/
theorem extract_ternary (cq alt : CondBranch) (loc : Option (Nat × Nat))
    (code file : String) :
    (extract (.success [⟨.identC "$t", [.conditional cq alt], loc⟩])
        code file false none).map (List.map (·.key)) =
      .ok (condLits cq ++ condLits alt) ∧
    (extract (.success [⟨.identC "$t",
        [.conditional (.lit "Yes") (.lit "No")], some (1, 1)⟩]) code file false none =
      .ok [{ key := "Yes", file := file, line := 1, column := 1 },
           { key := "No", file := file, line := 1, column := 1 }]) ∧
    (extract (.success [⟨.identC "$t",
        [.conditional .nonlit .nonlit], some (1, 1)⟩]) code file false none = .ok []) := by
  refine ⟨?_, ?_, rfl⟩
  · cases cq <;> cases alt <;>
      simp [extract, Except.map, extractItemsJS, extractFromAST, processCallNode,
        resolveCalleeName, processArgsLoop, condBranchCalls, condLits,
        itemFromCallJS_single_str, apply_ite ExtractionItem.key]
  · have h1 : keyBraces "Yes" = false := by decide
    have h2 : keyBraces "No" = false := by decide
    simp [extract, extractItemsJS, extractFromAST, processCallNode, resolveCalleeName,
      processArgsLoop, condBranchCalls, itemFromCallJS_single_str, h1, h2, locLine, locColumn]

/-! ## Claim C3: fallback logic of `extract` -/

/-- Claim C3 (amended): with diagnostics (or a hard failure) and
`fallbackToRegex` true, `extract` returns the regex extractor's result; a hard
failure without fallback propagates; but diagnostics without fallback do not
propagate — extraction proceeds on the recovered tree. -/
theorem extract_fallback_behaviour (ast : List CallNode) (errs : List String)
    (code file : String) (fns : Option (List String)) :
    (errs ≠ [] →
      extract (.recovered ast errs) code file true fns = .ok (extractWithRegex code file)) ∧
    extract (.hardFail errs) code file true fns = .ok (extractWithRegex code file) ∧
    extract (.hardFail errs) code file false fns = .error "ParseError" ∧
    extract (.recovered ast errs) code file false fns =
      .ok (extractItemsJS (extractFromAST ast fns) file) := by
  refine ⟨?_, ?_, ?_, ?_⟩
  · intro h
    have : 0 < errs.length := List.length_pos.mpr h
    simp [extract, this]
  · by_cases h : 0 < errs.length <;> simp [extract, h]
  · by_cases h : 0 < errs.length <;> simp [extract, h]
  · simp [extract]

/-- Witness for the fallback-behaviour theorem at a concrete input. -/
theorem extract_fallback_behaviour_witness :
    extract (.recovered [] ["diag"]) "x" "f" true none = .ok (extractWithRegex "x" "f") :=
  (extract_fallback_behaviour [] ["diag"] "x" "f" none).1 (by decide)

/-- Claim C3, counterexample: diagnostics reported with `fallbackToRegex`
false — the result is `.ok` (extraction proceeded on the partial tree), not a
propagated failure as claimed. -/
theorem extract_recovered_no_fallback_ok :
    extract (.recovered [] ["diag"]) "x" "f" false none = .ok [] ∧
      (Except.ok ([] : List ExtractionItem) : Except String (List ExtractionItem)) ≠
        .error "ParseError" :=
  ⟨rfl, fun h => Except.noConfusion h⟩

/-! ## Claim C4: the `hasParams`/`params` invariant -/

theorem itemFromCallJS_weakInv (file : String) (call : I18nCall) (i : ExtractionItem)
    (h : itemFromCallJS file call = some i) : itemParamsWeakInv i := by
  rw [itemFromCallJS] at h
  cases hh : call.args.head? with
  | none => rw [hh] at h; exact absurd h (by simp)
  | some a =>
    rw [hh] at h
    cases a with
    | objectArg ps ix => exact absurd h (by simp)
    | strArg v ix =>
      simp only [Option.some.injEq] at h
      subst h
      cases h2 : secondObjectParams call.args with
      | some ps =>
        simp only [h2]
        by_cases hl : ps.length > 0 <;>
          simp [hl, itemParamsWeakInv]
      | none =>
        simp only [h2]
        by_cases hb : keyBraces v <;>
          simp [hb, itemParamsWeakInv]
    | templateArg v ix =>
      simp only [Option.some.injEq] at h
      subst h
      cases h2 : secondObjectParams call.args with
      | some ps =>
        simp only [h2]
        by_cases hl : ps.length > 0 <;>
          simp [hl, itemParamsWeakInv]
      | none =>
        simp only [h2]
        by_cases hb : keyBraces v <;>
          simp [hb, itemParamsWeakInv]

theorem itemFromCallTS_weakInv (file : String) (call : I18nCall) (i : ExtractionItem)
    (h : itemFromCallTS file call = some i) : itemParamsWeakInv i := by
  rw [itemFromCallTS] at h
  cases hh : call.args.head? with
  | none => rw [hh] at h; exact absurd h (by simp)
  | some a =>
    rw [hh] at h
    cases a with
    | objectArg ps ix => exact absurd h (by simp)
    | strArg v ix =>
      simp only [Option.some.injEq] at h
      subst h
      cases h2 : secondObjectParams call.args with
      | some ps =>
        simp only [h2]
        by_cases hl : ps.length > 0 <;>
          simp [hl, itemParamsWeakInv]
      | none =>
        simp only [h2]
        by_cases hb : keyBraces v <;>
          simp [hb, itemParamsWeakInv]
    | templateArg v ix =>
      simp only [Option.some.injEq] at h
      subst h
      cases h2 : secondObjectParams call.args with
      | some ps =>
        simp only [h2]
        by_cases hl : ps.length > 0 <;>
          simp [hl, itemParamsWeakInv]
      | none =>
        simp only [h2]
        by_cases hb : keyBraces v <;>
          simp [hb, itemParamsWeakInv]

theorem regexItem_weakInv (code : List Char) (file : String) (r : Nat × List Char) :
    itemParamsWeakInv (regexItem code file r) := by
  rw [regexItem]
  by_cases hb : keyBraces (cleanupCapture r.2) <;>
    simp [hb, itemParamsWeakInv]

theorem mem_foldl_append {α β : Type} (g : β → List α) (l : List β) :
    ∀ (init : List α) (x : α),
      x ∈ l.foldl (fun acc m => acc ++ g m) init ↔ x ∈ init ∨ ∃ m ∈ l, x ∈ g m := by
  induction l with
  | nil => simp
  | cons b t ih =>
    intro init x
    simp only [List.foldl_cons]
    rw [ih]
    simp only [List.mem_append, List.mem_cons]
    constructor
    · rintro (⟨h | h⟩ | ⟨m, hm, hx⟩)
      · exact Or.inl h
      · exact Or.inr ⟨b, Or.inl rfl, h⟩
      · exact Or.inr ⟨m, Or.inr hm, hx⟩
    · rintro (h | ⟨m, hm | hm, hx⟩)
      · exact Or.inl (Or.inl h)
      · subst hm
        exact Or.inl (Or.inr hx)
      · exact Or.inr ⟨m, hm, hx⟩

theorem extractWithRegex_weakInv (code file : String) :
    ∀ i ∈ extractWithRegex code file, itemParamsWeakInv i := by
  intro i hi
  rw [extractWithRegex] at hi
  rw [mem_foldl_append] at hi
  rcases hi with h | ⟨m, _, hx⟩
  · simp at h
  · obtain ⟨r, _, rfl⟩ := List.mem_map.mp hx
    exact regexItem_weakInv _ _ _

theorem extractItemsJS_weakInv (calls : List I18nCall) (file : String) :
    ∀ i ∈ extractItemsJS calls file, itemParamsWeakInv i := by
  intro i hi
  obtain ⟨c, _, hc⟩ := List.mem_filterMap.mp hi
  exact itemFromCallJS_weakInv file c i hc

theorem extractItemsTS_weakInv (calls : List I18nCall) (file : String) :
    ∀ i ∈ extractItemsTS calls file, itemParamsWeakInv i := by
  intro i hi
  obtain ⟨c, _, hc⟩ := List.mem_filterMap.mp hi
  exact itemFromCallTS_weakInv file c i hc

theorem extract_weakInv (po : ParseOutcome) (code file : String) (fb : Bool)
    (fns : Option (List String)) (r : List ExtractionItem)
    (h : extract po code file fb fns = .ok r) :
    ∀ i ∈ r, itemParamsWeakInv i := by
  intro i hi
  cases po with
  | success ast =>
    simp only [extract, Except.ok.injEq] at h
    subst h
    exact extractItemsJS_weakInv _ _ i hi
  | recovered ast errs =>
    simp only [extract] at h
    by_cases hc : (errs.length > 0 && fb) = true
    · rw [if_pos hc] at h
      simp only [Except.ok.injEq] at h
      subst h
      exact extractWithRegex_weakInv _ _ i hi
    · rw [if_neg hc] at h
      simp only [Except.ok.injEq] at h
      subst h
      exact extractItemsJS_weakInv _ _ i hi
  | hardFail errs =>
    simp only [extract] at h
    by_cases hc : (errs.length > 0 && fb) = true
    · rw [if_pos hc] at h
      simp only [Except.ok.injEq] at h
      subst h
      exact extractWithRegex_weakInv _ _ i hi
    · rw [if_neg hc] at h
      by_cases hf : fb = true
      · rw [if_pos hf] at h
        simp only [Except.ok.injEq] at h
        subst h
        exact extractWithRegex_weakInv _ _ i hi
      · rw [if_neg hf] at h
        exact absurd h (by simp)

/-- Claim C4 (amended): every item produced by the embedded extraction entry
points satisfies the one-directional invariant — non-empty `params` implies
`hasParams = true` and `hasParams = false` implies empty `params`; the
claimed equivalences with brace tokens in the key do not hold (see the
counterexample). -/
theorem extraction_items_weakInv :
    (∀ (po : ParseOutcome) (code file : String) (fb : Bool)
        (fns : Option (List String)) (r : List ExtractionItem),
      extract po code file fb fns = .ok r → ∀ i ∈ r, itemParamsWeakInv i) ∧
    (∀ (po : TsParseOutcome) (code file : String) (fns : Option (List String))
        (r : List ExtractionItem),
      extractFromTypescript po code file fns = .ok r → ∀ i ∈ r, itemParamsWeakInv i) ∧
    (∀ template file : String, ∀ i ∈ extractFromTemplate template file,
      itemParamsWeakInv i) := by
  refine ⟨fun po code file fb fns r h => extract_weakInv po code file fb fns r h, ?_, ?_⟩
  · intro po code file fns r h i hi
    cases po with
    | tsSuccess ast =>
      simp only [extractFromTypescript, Except.ok.injEq] at h
      subst h
      exact extractItemsTS_weakInv _ _ i hi
    | tsFailure jsPo =>
      simp only [extractFromTypescript] at h
      exact extract_weakInv jsPo code file true fns r h i hi
  · intro template file i hi
    rw [extractFromTemplate] at hi
    obtain ⟨p, _, hp⟩ := List.mem_map.mp hi
    subst hp
    by_cases hb : keyBraces p.2 <;> simp [hb, itemParamsWeakInv]

/-- Witness for the weakened invariant at a concrete extraction. -/
theorem extraction_items_weakInv_witness :
    itemParamsWeakInv
      { key := "hello", file := "f", line := 1, column := 1,
        hasParams := true, params := [] } :=
  extraction_items_weakInv.1 (.success [⟨.identC "$t",
      [.stringLit "hello", .objectExpr [⟨true, "values", true, [⟨true, "name"⟩]⟩]],
      some (1, 1)⟩]) "" "f" false none
    [{ key := "hello", file := "f", line := 1, column := 1,
       hasParams := true, params := [] }] rfl _ (by simp)

/-- Claim C4, counterexample: `$t('hello', {values: {name: 1}})` produces an
item with `hasParams = true`, empty `params` and a key without brace tokens,
refuting both claimed equivalences. -/
theorem extract_item_invariant_fails :
    extract (.success [⟨.identC "$t",
        [.stringLit "hello", .objectExpr [⟨true, "values", true, [⟨true, "name"⟩]⟩]],
        some (1, 1)⟩]) "" "f" false none =
      .ok [{ key := "hello", file := "f", line := 1, column := 1,
             hasParams := true, params := [] }] ∧
    ¬ itemParamsInvariant
        { key := "hello", file := "f", line := 1, column := 1,
          hasParams := true, params := [] } := by
  constructor
  · rfl
  · rw [itemParamsInvariant]
    simp

/-! ## Claim C8: fallback normalization order -/

/-- Claim C8 (amended): the template scanner `parseTemplate` applies the
fixed order unescape → collapse-newline-runs → trim, so the escaped-quote
literal yields `It's working` (and, with surrounding whitespace and a
newline, `It's ok`); the code-level fallback `extractWithRegex` applies only
collapse and trim, leaving escape sequences intact. -/
theorem parseTemplate_normalization :
    parseTemplate "$t(\x27It\\\x27s working\x27)" = ["It\x27s working"] ∧
    parseTemplate "$t(\x27  It\\\x27s \n ok \x27)" = ["It\x27s ok"] ∧
    (extractWithRegex "$t(\x27  It\\\x27s \n ok \x27)" "f").map (·.key) =
      ["It\\\x27s ok", "It\\\x27s ok"] ∧
    (∀ raw : List Char,
      cleanTemplateCapture raw = String.mk (trimChars (collapseWs (unescapeChars raw))) ∧
      cleanupCapture raw = String.mk (trimChars (collapseWs raw))) := by
  exact ⟨by decide, by decide, by decide, fun raw => ⟨rfl, rfl⟩⟩

/-- Claim C8, counterexample: on the literal `It\'s working` inside a
single-quoted call, the code-level fallback extractor (one of the two
components of the Pattern-Based Fallback Extractor) performs no unescaping
and yields `It\'s working`, not `It's working`. -/
theorem extractWithRegex_no_unescape :
    (extractWithRegex "$t(\x27It\\\x27s working\x27)" "f").map (·.key) =
      ["It\\\x27s working", "It\\\x27s working"] ∧
    ("It\\\x27s working" : String) ≠ "It\x27s working" := by
  exact ⟨by decide, by decide⟩

/-! ## Claim C9: directory extraction progress -/

theorem extractFromDirectory_fold (total : Nat) (fs : List (String × FileOutcome)) :
    ∀ (acc : List ExtractionItem) (evs : List ProgressEvent) (n : Nat),
      fs.foldl
        (fun (acc : List ExtractionItem × List ProgressEvent × Nat) f =>
          match f.2 with
          | .okF items =>
            (acc.1 ++ items, acc.2.1 ++ [⟨acc.2.2 + 1, total, f.1⟩], acc.2.2 + 1)
          | .errF _ => acc)
        (acc, evs, n) =
      (acc ++ dirResultsSpec fs, evs ++ progressEventsSpec total n fs,
        n + fs.countP fileOk) := by
  induction fs with
  | nil => intro acc evs n; simp [dirResultsSpec, progressEventsSpec]
  | cons f t ih =>
    intro acc evs n
    obtain ⟨name, outcome⟩ := f
    cases outcome with
    | okF items =>
      simp only [List.foldl_cons, ih]
      simp [dirResultsSpec, progressEventsSpec, fileOk, List.countP_cons]
      omega
    | errF msg =>
      simp only [List.foldl_cons, ih]
      simp [dirResultsSpec, progressEventsSpec, fileOk, List.countP_cons]

theorem progressEventsSpec_current (total : Nat) (fs : List (String × FileOutcome)) :
    ∀ n, (progressEventsSpec total n fs).map (·.current) =
      List.range' (n + 1) (fs.countP fileOk) := by
  induction fs with
  | nil => intro n; simp [progressEventsSpec, fileOk]
  | cons f t ih =>
    intro n
    obtain ⟨name, outcome⟩ := f
    cases outcome with
    | okF items =>
      simp [progressEventsSpec, fileOk, List.countP_cons, ih, List.range'_succ]
    | errF msg =>
      simp [progressEventsSpec, fileOk, List.countP_cons, ih]

theorem progressEventsSpec_total (total : Nat) (fs : List (String × FileOutcome)) :
    ∀ n, (progressEventsSpec total n fs).map (·.total) =
      List.replicate (fs.countP fileOk) total := by
  induction fs with
  | nil => intro n; simp [progressEventsSpec, fileOk]
  | cons f t ih =>
    intro n
    obtain ⟨name, outcome⟩ := f
    cases outcome with
    | okF items =>
      simp [progressEventsSpec, fileOk, List.countP_cons, ih, List.replicate_succ]
    | errF msg =>
      simp [progressEventsSpec, fileOk, List.countP_cons, ih]

theorem progressEventsSpec_file (total : Nat) (fs : List (String × FileOutcome)) :
    ∀ n, (progressEventsSpec total n fs).map (·.file) =
      (fs.filter fileOk).map (·.1) := by
  induction fs with
  | nil => intro n; simp [progressEventsSpec]
  | cons f t ih =>
    intro n
    obtain ⟨name, outcome⟩ := f
    cases outcome with
    | okF items =>
      simp [progressEventsSpec, fileOk, List.filter_cons, ih]
    | errF msg =>
      simp [progressEventsSpec, fileOk, List.filter_cons, ih]

/-- Claim C9 (amended): the progress callback fires exactly once per
successfully processed file, after processing, with `current` the 1-based
running count of successes (reaching the number of successes, not the
enumeration size), `total` the fixed enumeration size, and the successful
file's name; failing files are skipped — caught without aborting the batch
and without a callback — and the items are those of the successful files. -/
theorem extractFromDirectory_progress (files : List (String × FileOutcome)) :
    (extractFromDirectory files).2 = progressEventsSpec files.length 0 files ∧
    ((extractFromDirectory files).2).map (·.current) =
      List.range' 1 (files.countP fileOk) ∧
    ((extractFromDirectory files).2).map (·.total) =
      List.replicate (files.countP fileOk) files.length ∧
    ((extractFromDirectory files).2).map (·.file) =
      (files.filter fileOk).map (·.1) ∧
    (extractFromDirectory files).1 = dirResultsSpec files := by
  have h := extractFromDirectory_fold files.length files [] [] 0
  have h2 : extractFromDirectory files =
      (dirResultsSpec files, progressEventsSpec files.length 0 files) := by
    rw [extractFromDirectory, h]
    simp
  rw [h2]
  refine ⟨rfl, ?_, ?_, ?_, rfl⟩
  · simpa using progressEventsSpec_current files.length files 0
  · exact progressEventsSpec_total files.length files 0
  · exact progressEventsSpec_file files.length files 0

/-- Claim C9, counterexample: with a failing first file the callback fires
only for the succeeding file — once, not once per enumerated file. -/
theorem extractFromDirectory_skips_failed :
    (extractFromDirectory [("a.js", .errF "boom"), ("b.js", .okF [])]).2 =
      [⟨1, 2, "b.js"⟩] ∧
    (extractFromDirectory [("a.js", .errF "boom"), ("b.js", .okF [])]).2.length ≠
      ([("a.js", FileOutcome.errF "boom"), ("b.js", FileOutcome.okF [])]).length ∧
    "a.js" ∉ ((extractFromDirectory
      [("a.js", .errF "boom"), ("b.js", .okF [])]).2).map (·.file) := by
  refine ⟨rfl, by decide, by decide⟩



/-! ## Catalog lemmas for claims C5 and C6 -/

theorem hasKeyC_iff_mem (c : Catalog) (k : String) :
    hasKeyC c k = true ↔ k ∈ c.map Prod.fst := by
  simp [hasKeyC, List.any_eq_true, List.mem_map]

theorem lookupC_eq_none_iff (c : Catalog) (k : String) :
    lookupC c k = none ↔ hasKeyC c k = false := by
  rw [lookupC]
  cases hf : c.find? (fun kv => kv.1 == k) with
  | some x =>
    constructor
    · intro h
      exact absurd h (by simp)
    · intro h
      exfalso
      have hx := List.find?_some hf
      have hmem := List.mem_of_find?_eq_some hf
      rw [Bool.eq_false_iff] at h
      exact h (List.any_eq_true.mpr ⟨x, hmem, hx⟩)
  | none =>
    constructor
    · intro _
      rw [Bool.eq_false_iff]
      intro hc
      obtain ⟨kv, hkv, he⟩ := List.any_eq_true.mp hc
      exact (List.find?_eq_none.mp hf kv hkv) he
    · intro _
      rfl

theorem lookupC_hasKey_of_some {c : Catalog} {k tv : String}
    (h : lookupC c k = some tv) : hasKeyC c k = true := by
  cases hb : hasKeyC c k with
  | true => rfl
  | false =>
    rw [← lookupC_eq_none_iff] at hb
    rw [hb] at h
    exact absurd h (by simp)

theorem lookupC_map_set_self (c : Catalog) (k v : String) (h : hasKeyC c k = true) :
    lookupC (c.map (fun kv => if kv.1 == k then (k, v) else kv)) k = some v := by
  induction c with
  | nil => simp [hasKeyC] at h
  | cons a t ih =>
    by_cases ha : (a.1 == k) = true
    · simp [lookupC, List.find?, ha]
    · have ht : hasKeyC t k = true := by
        simp only [hasKeyC, List.any_cons, ha, Bool.false_or] at h
        exact h
      simp only [List.map_cons, ha, Bool.false_eq_true, if_neg, not_false_iff]
      simp only [lookupC, List.find?, ha]
      exact ih ht

theorem lookupC_setC_self (c : Catalog) (k v : String) :
    lookupC (setC c k v) k = some v := by
  rw [setC]
  by_cases h : hasKeyC c k = true
  · rw [if_pos h]
    exact lookupC_map_set_self c k v h
  · rw [if_neg h]
    have hn : lookupC c k = none := by
      rw [lookupC_eq_none_iff]
      cases hb : hasKeyC c k with
      | false => rfl
      | true => exact absurd hb h
    rw [lookupC] at hn ⊢
    rw [List.find?_append]
    cases hf : c.find? (fun kv => kv.1 == k) with
    | some x =>
      rw [hf] at hn
      exact absurd hn (by simp)
    | none =>
      simp [List.find?]

theorem find?_map_set_ne (c : Catalog) (k v k' : String) (h : k' ≠ k) :
    (c.map (fun kv => if kv.1 == k then (k, v) else kv)).find? (fun kv => kv.1 == k') =
      c.find? (fun kv => kv.1 == k') := by
  induction c with
  | nil => rfl
  | cons a t ih =>
    by_cases ha : (a.1 == k) = true
    · have hak : a.1 = k := by simpa using ha
      have h1 : (k == k') = false := by simp [Ne.symm h]
      have h2 : (a.1 == k') = false := by simp [hak, Ne.symm h]
      simp only [List.map_cons, ha, if_pos]
      simp only [List.find?, h1, h2]
      exact ih
    · simp only [List.map_cons, ha, Bool.false_eq_true, if_neg, not_false_iff]
      by_cases ha' : (a.1 == k') = true
      · simp only [List.find?, ha']
      · have ha2 : (a.1 == k') = false := by simpa using ha'
        simp only [List.find?, ha2]
        exact ih

theorem lookupC_setC_ne (c : Catalog) (k v k' : String) (h : k' ≠ k) :
    lookupC (setC c k v) k' = lookupC c k' := by
  rw [setC]
  by_cases hk : hasKeyC c k = true
  · rw [if_pos hk, lookupC, lookupC, find?_map_set_ne c k v k' h]
  · rw [if_neg hk, lookupC, lookupC, List.find?_append]
    have hkk : (k == k') = false := by simp [Ne.symm h]
    have hone : ([(k, v)].find? (fun kv => kv.1 == k')) = none := by
      simp [List.find?, hkk]
    rw [hone]
    simp

theorem keys_setC_of_hasKey (c : Catalog) (k v : String) (h : hasKeyC c k = true) :
    (setC c k v).map Prod.fst = c.map Prod.fst := by
  rw [setC, if_pos h, List.map_map]
  apply List.map_congr_left
  intro kv _
  by_cases hkv : (kv.1 == k) = true
  · have : kv.1 = k := by simpa using hkv
    simp [Function.comp, hkv, this]
  · simp [Function.comp, hkv]

theorem updStep_shape (opts : UpdateLocaleOptions) (acc : Catalog × UpdateStats)
    (kv : String × String) :
    (updStep opts acc kv).1 = acc.1 ∨
      ∃ v, (updStep opts acc kv).1 = setC acc.1 kv.1 v := by
  cases hl : lookupC acc.1 kv.1 with
  | some tv =>
    simp only [updStep, hl]
    by_cases h1 : (opts.removeUntranslated && tv == kv.1) = true
    · rw [if_pos h1]
      exact Or.inr ⟨kv.2, rfl⟩
    · rw [if_neg h1]
      by_cases h2 : (opts.validateParams && hasParams kv.1) = true
      · rw [if_pos h2]
        by_cases h3 : (!(arraysEqual (extractParams kv.2) (extractParams tv))) = true
        · rw [if_pos h3]
          exact Or.inr ⟨"[PARAM_MISMATCH] " ++ tv, rfl⟩
        · rw [if_neg h3]
          exact Or.inl rfl
      · rw [if_neg h2]
        exact Or.inl rfl
  | none =>
    simp only [updStep, hl]
    exact Or.inr ⟨kv.2, rfl⟩

theorem lookupC_updStep_ne (opts : UpdateLocaleOptions) (acc : Catalog × UpdateStats)
    (kv : String × String) (k : String) (h : k ≠ kv.1) :
    lookupC (updStep opts acc kv).1 k = lookupC acc.1 k := by
  rcases updStep_shape opts acc kv with hs | ⟨v, hs⟩
  · rw [hs]
  · rw [hs]
    exact lookupC_setC_ne acc.1 kv.1 v k h

theorem lookupC_foldl_ne (opts : UpdateLocaleOptions) (src : List (String × String))
    (k : String) (h : ∀ kv ∈ src, k ≠ kv.1) :
    ∀ acc : Catalog × UpdateStats,
      lookupC (src.foldl (updStep opts) acc).1 k = lookupC acc.1 k := by
  induction src with
  | nil => intro acc; rfl
  | cons a t ih =>
    intro acc
    rw [List.foldl_cons]
    rw [ih (fun kv hkv => h kv (List.mem_cons_of_mem a hkv))]
    exact lookupC_updStep_ne opts acc a k (h a (List.mem_cons_self a t))

theorem keys_setC_absent (c : Catalog) (k v : String) (h : hasKeyC c k = false) :
    (setC c k v).map Prod.fst = c.map Prod.fst ++ [k] := by
  rw [setC, if_neg (by simp [h])]
  simp

theorem nodupKeys_updStep (opts : UpdateLocaleOptions) (acc : Catalog × UpdateStats)
    (kv : String × String) (h : (acc.1.map Prod.fst).Nodup) :
    ((updStep opts acc kv).1.map Prod.fst).Nodup := by
  rcases updStep_shape opts acc kv with hs | ⟨v, hs⟩
  · rw [hs]; exact h
  · rw [hs]
    cases hk : hasKeyC acc.1 kv.1 with
    | true =>
      rw [keys_setC_of_hasKey acc.1 kv.1 v hk]
      exact h
    | false =>
      rw [keys_setC_absent acc.1 kv.1 v hk]
      simp only [List.nodup_append, List.nodup_singleton, List.disjoint_singleton]
      refine ⟨h, trivial, ?_⟩
      intro hmem
      rw [← hasKeyC_iff_mem] at hmem
      rw [hmem] at hk
      exact absurd hk (by simp)

theorem nodupKeys_foldl (opts : UpdateLocaleOptions) (src : List (String × String)) :
    ∀ acc : Catalog × UpdateStats, (acc.1.map Prod.fst).Nodup →
      ((src.foldl (updStep opts) acc).1.map Prod.fst).Nodup := by
  induction src with
  | nil => intro acc h; exact h
  | cons a t ih =>
    intro acc h
    rw [List.foldl_cons]
    exact ih _ (nodupKeys_updStep opts acc a h)

theorem setC_id (c : Catalog) (k v : String) (hnd : (c.map Prod.fst).Nodup)
    (h : lookupC c k = some v) : setC c k v = c := by
  have hk : hasKeyC c k = true := lookupC_hasKey_of_some h
  rw [setC, if_pos hk]
  induction c with
  | nil => rfl
  | cons a t ih =>
    by_cases ha : (a.1 == k) = true
    · have hak : a.1 = k := by simpa using ha
      have hav : a.2 = v := by
        simp only [lookupC, List.find?, ha] at h
        exact Option.some.inj h
      have htk : hasKeyC t k = false := by
        cases hb : hasKeyC t k with
        | false => rfl
        | true =>
          rw [hasKeyC_iff_mem] at hb
          rw [List.map_cons, List.nodup_cons, hak] at hnd
          exact absurd hb hnd.1
      have hmap : t.map (fun kv => if kv.1 == k then (k, v) else kv) = t := by
        calc t.map (fun kv => if kv.1 == k then (k, v) else kv) = t.map id := by
              apply List.map_congr_left
              intro kv hkv
              have hne : (kv.1 == k) = false := by
                rw [Bool.eq_false_iff]
                intro he
                have : hasKeyC t k = true := List.any_eq_true.mpr ⟨kv, hkv, he⟩
                rw [htk] at this
                exact absurd this (by simp)
              simp [hne]
          _ = t := List.map_id t
      simp only [List.map_cons, ha, if_pos, hmap]
      rw [← hak, ← hav]
    · simp only [List.map_cons, ha, Bool.false_eq_true, if_neg, not_false_iff]
      have htk : hasKeyC t k = true := by
        simp only [hasKeyC, List.any_cons, ha, Bool.false_or] at hk
        exact hk
      have hlt : lookupC t k = some v := by
        simp only [lookupC, List.find?, ha] at h
        exact h
      have hndt : (t.map Prod.fst).Nodup := by
        rw [List.map_cons, List.nodup_cons] at hnd
        exact hnd.2
      rw [ih hndt hlt htk]

/-! ## Claim C5: idempotence of `updateLocale` without flush -/

theorem updStep_lookup_self (opts : UpdateLocaleOptions) (acc : Catalog × UpdateStats)
    (kv : String × String) (hv : opts.validateParams = false) :
    ∃ w, lookupC (updStep opts acc kv).1 kv.1 = some w ∧
      (opts.removeUntranslated = true → w = kv.1 → kv.2 = kv.1) := by
  cases hl : lookupC acc.1 kv.1 with
  | none =>
    simp only [updStep, hl]
    exact ⟨kv.2, lookupC_setC_self acc.1 kv.1 kv.2, fun _ h => h⟩
  | some tv =>
    simp only [updStep, hl]
    by_cases h1 : (opts.removeUntranslated && tv == kv.1) = true
    · rw [if_pos h1]
      exact ⟨kv.2, lookupC_setC_self acc.1 kv.1 kv.2, fun _ h => h⟩
    · rw [if_neg h1, hv]
      simp only [Bool.false_and, Bool.false_eq_true, if_neg, not_false_iff]
      refine ⟨tv, hl, ?_⟩
      intro hru htv
      rw [hru] at h1
      simp only [Bool.true_and] at h1
      exact absurd (by simp [htv]) h1

theorem good_after_pass1 (opts : UpdateLocaleOptions) (hv : opts.validateParams = false)
    (src : List (String × String)) (hnd : (src.map Prod.fst).Nodup) :
    ∀ acc : Catalog × UpdateStats, ∀ kv ∈ src, ∃ w,
      lookupC (src.foldl (updStep opts) acc).1 kv.1 = some w ∧
      (opts.removeUntranslated = true → w = kv.1 → kv.2 = kv.1) := by
  induction src with
  | nil =>
    intro acc kv h
    exact absurd h (List.not_mem_nil kv)
  | cons a t ih =>
    intro acc kv hkv
    rw [List.foldl_cons]
    rw [List.map_cons, List.nodup_cons] at hnd
    rcases List.mem_cons.mp hkv with heq | hmem
    · subst heq
      obtain ⟨w, hw, hp⟩ := updStep_lookup_self opts acc kv hv
      refine ⟨w, ?_, hp⟩
      rw [lookupC_foldl_ne opts t kv.1 ?hne (updStep opts acc kv)]
      · exact hw
      case hne =>
        intro kv' hkv' heq'
        exact hnd.1 (heq' ▸ List.mem_map.mpr ⟨kv', hkv', rfl⟩)
    · exact ih hnd.2 (updStep opts acc a) kv hmem

theorem foldl_id_of_good (opts : UpdateLocaleOptions) (hv : opts.validateParams = false)
    (src : List (String × String)) (r1 : Catalog) (hnd : (r1.map Prod.fst).Nodup)
    (hgood : ∀ kv ∈ src, ∃ w, lookupC r1 kv.1 = some w ∧
      (opts.removeUntranslated = true → w = kv.1 → kv.2 = kv.1)) :
    ∀ st : UpdateStats, (src.foldl (updStep opts) (r1, st)).1 = r1 := by
  induction src with
  | nil => intro st; rfl
  | cons a t ih =>
    intro st
    rw [List.foldl_cons]
    obtain ⟨w, hw, hp⟩ := hgood a (List.mem_cons_self a t)
    have hstep : (updStep opts (r1, st) a).1 = r1 := by
      simp only [updStep, hw]
      by_cases h1 : (opts.removeUntranslated && w == a.1) = true
      · rw [if_pos h1]
        have hru : opts.removeUntranslated = true := by
          cases hb : opts.removeUntranslated with
          | true => rfl
          | false => rw [hb] at h1; exact absurd h1 (by simp)
        have hwa : w = a.1 := by
          rw [hru] at h1
          simpa using h1
        have ha2 : a.2 = a.1 := hp hru hwa
        have : lookupC r1 a.1 = some a.2 := by rw [hw, hwa, ha2]
        exact setC_id r1 a.1 a.2 hnd this
      · rw [if_neg h1, hv]
        simp only [Bool.false_and, Bool.false_eq_true, if_neg, not_false_iff]
    have hpair : updStep opts (r1, st) a = (r1, (updStep opts (r1, st) a).2) := by
      exact Prod.ext hstep rfl
    rw [hpair]
    exact ih (fun kv hkv => hgood kv (List.mem_cons_of_mem a hkv))
      ((updStep opts (r1, st) a).2)

/-- Claim C5: for source and target catalogs (distinct keys each, as for any
JavaScript object), `updateLocale` without `flush` is idempotent on the
resulting catalog — the claim's stated exception for the `validateParams`
mismatch marker is reflected by the `validateParams = false` hypothesis. -/
theorem updateLocale_idempotent (source target : Catalog) (opts : UpdateLocaleOptions)
    (hs : (source.map Prod.fst).Nodup) (ht : (target.map Prod.fst).Nodup)
    (hf : opts.flush = false) (hv : opts.validateParams = false) :
    (updateLocale source (updateLocale source target opts).1 opts).1 =
      (updateLocale source target opts).1 := by
  have hexp : ∀ c : Catalog, (updateLocale source c opts).1 =
      (source.foldl (updStep opts) (c, { removed := 0 })).1 := by
    intro c
    rw [updateLocale]
    simp only [hf, Bool.false_eq_true, if_neg, not_false_iff]
  rw [hexp target, hexp (source.foldl (updStep opts) (target, { removed := 0 })).1]
  have hnd1 : (((source.foldl (updStep opts) (target, { removed := 0 })).1).map Prod.fst).Nodup :=
    nodupKeys_foldl opts source (target, { removed := 0 }) ht
  exact foldl_id_of_good opts hv source _ hnd1
    (good_after_pass1 opts hv source hs (target, { removed := 0 })) { removed := 0 }

/-- Witness for the idempotence theorem at concrete catalogs. -/
theorem updateLocale_idempotent_witness :
    (updateLocale [("a", "A"), ("c", "C")]
        (updateLocale [("a", "A"), ("c", "C")] [("a", "X"), ("b", "B")] {}).1 {}).1 =
      (updateLocale [("a", "A"), ("c", "C")] [("a", "X"), ("b", "B")] {}).1 :=
  updateLocale_idempotent [("a", "A"), ("c", "C")] [("a", "X"), ("b", "B")] {}
    (by decide) (by decide) rfl rfl

/-! ## Claim C6: `findUnused` versus flush -/

theorem lookupC_filter_of_key (source c : Catalog) (k : String)
    (hp : hasKeyC source k = true) :
    lookupC (c.filter (fun kv => hasKeyC source kv.1)) k = lookupC c k := by
  induction c with
  | nil => rfl
  | cons a t ih =>
    by_cases ha : (a.1 == k) = true
    · have hak : a.1 = k := by simpa using ha
      have hpa : hasKeyC source a.1 = true := by rw [hak]; exact hp
      simp only [List.filter_cons, hpa, if_pos]
      simp only [lookupC, List.find?, ha]
    · by_cases hpa : hasKeyC source a.1 = true
      · simp only [List.filter_cons, hpa, if_pos]
        simp only [lookupC, List.find?, ha]
        exact ih
      · have hpa' : hasKeyC source a.1 = false := by
          cases hb : hasKeyC source a.1 with
          | false => rfl
          | true => exact absurd hb hpa
        simp only [List.filter_cons, hpa', Bool.false_eq_true, if_neg, not_false_iff]
        rw [ih]
        simp only [lookupC, List.find?, ha]

theorem hasKeyC_filter_eq (source c : Catalog) (k : String)
    (hp : hasKeyC source k = true) :
    hasKeyC (c.filter (fun kv => hasKeyC source kv.1)) k = hasKeyC c k := by
  induction c with
  | nil => rfl
  | cons a t ih =>
    by_cases ha : (a.1 == k) = true
    · have hak : a.1 = k := by simpa using ha
      have hpa : hasKeyC source a.1 = true := by rw [hak]; exact hp
      simp only [List.filter_cons, hpa, if_pos]
      simp [hasKeyC, ha]
    · by_cases hpa : hasKeyC source a.1 = true
      · simp only [List.filter_cons, hpa, if_pos]
        simp only [hasKeyC, List.any_cons, ha]
        simpa [hasKeyC] using ih
      · have hpa' : hasKeyC source a.1 = false := by
          cases hb : hasKeyC source a.1 with
          | false => rfl
          | true => exact absurd hb hpa
        simp only [List.filter_cons, hpa', Bool.false_eq_true, if_neg, not_false_iff]
        rw [ih]
        simp [hasKeyC, ha]

theorem map_set_id_of_not_hasKey (c : Catalog) (k v : String) (h : hasKeyC c k = false) :
    c.map (fun kv => if kv.1 == k then (k, v) else kv) = c := by
  calc c.map (fun kv => if kv.1 == k then (k, v) else kv) = c.map id := by
        apply List.map_congr_left
        intro kv hkv
        have hne : (kv.1 == k) = false := by
          rw [Bool.eq_false_iff]
          intro he
          rw [Bool.eq_false_iff] at h
          exact h (List.any_eq_true.mpr ⟨kv, hkv, he⟩)
        simp [hne]
    _ = c := List.map_id c

theorem filter_map_set_comm (source t : Catalog) (k v : String)
    (hp : hasKeyC source k = true) :
    (t.filter (fun kv => hasKeyC source kv.1)).map
        (fun kv => if kv.1 == k then (k, v) else kv) =
      (t.map (fun kv => if kv.1 == k then (k, v) else kv)).filter
        (fun kv => hasKeyC source kv.1) := by
  induction t with
  | nil => rfl
  | cons a t ih =>
    by_cases ha : (a.1 == k) = true
    · have hak : a.1 = k := by simpa using ha
      have hpa : hasKeyC source a.1 = true := by rw [hak]; exact hp
      simp only [List.filter_cons, hpa, if_pos, List.map_cons, ha]
      simp only [List.filter_cons, hp, if_pos]
      rw [ih]
    · by_cases hpa : hasKeyC source a.1 = true
      · simp only [List.filter_cons, hpa, if_pos, List.map_cons, ha, Bool.false_eq_true,
          if_neg, not_false_iff]
        rw [ih]
      · have hpa' : hasKeyC source a.1 = false := by
          cases hb : hasKeyC source a.1 with
          | false => rfl
          | true => exact absurd hb hpa
        simp only [List.map_cons, ha, Bool.false_eq_true, if_neg, not_false_iff,
          List.filter_cons, hpa']
        exact ih

theorem setC_filter_comm (source c : Catalog) (k v : String)
    (hp : hasKeyC source k = true) :
    setC (c.filter (fun kv => hasKeyC source kv.1)) k v =
      (setC c k v).filter (fun kv => hasKeyC source kv.1) := by
  by_cases hk : hasKeyC c k = true
  · have hkf : hasKeyC (c.filter (fun kv => hasKeyC source kv.1)) k = true := by
      rw [hasKeyC_filter_eq source c k hp]
      exact hk
    rw [setC, if_pos hkf, setC, if_pos hk]
    exact filter_map_set_comm source c k v hp
  · have hk' : hasKeyC c k = false := by
      cases hb : hasKeyC c k with
      | false => rfl
      | true => exact absurd hb hk
    have hkf : hasKeyC (c.filter (fun kv => hasKeyC source kv.1)) k = false := by
      rw [hasKeyC_filter_eq source c k hp]
      exact hk'
    rw [setC, if_neg (by simp [hkf]), setC, if_neg (by simp [hk'])]
    rw [List.filter_append]
    congr 1
    simp [List.filter_cons, hp]

theorem updStep_flush_irrel (opts : UpdateLocaleOptions) (b : Bool) :
    updStep { opts with flush := b } = updStep opts := by
  funext acc kv
  rfl

theorem foldl_filter_sim (opts : UpdateLocaleOptions) (source : Catalog)
    (src : List (String × String)) (hsub : ∀ kv ∈ src, hasKeyC source kv.1 = true) :
    ∀ (rF : Catalog) (stT stF : UpdateStats),
      (src.foldl (updStep opts) (rF.filter (fun kv => hasKeyC source kv.1), stT)).1 =
        ((src.foldl (updStep opts) (rF, stF)).1).filter
          (fun kv => hasKeyC source kv.1) := by
  induction src with
  | nil => intro rF stT stF; rfl
  | cons a t ih =>
    intro rF stT stF
    rw [List.foldl_cons, List.foldl_cons]
    have ha : hasKeyC source a.1 = true := hsub a (List.mem_cons_self a t)
    have hsub' : ∀ kv ∈ t, hasKeyC source kv.1 = true :=
      fun kv hkv => hsub kv (List.mem_cons_of_mem a hkv)
    have hstep : (updStep opts (rF.filter (fun kv => hasKeyC source kv.1), stT) a).1 =
        ((updStep opts (rF, stF) a).1).filter (fun kv => hasKeyC source kv.1) := by
      cases hl : lookupC rF a.1 with
      | some tv =>
        have hlf : lookupC (rF.filter (fun kv => hasKeyC source kv.1)) a.1 = some tv := by
          rw [lookupC_filter_of_key source rF a.1 ha]
          exact hl
        simp only [updStep, hl, hlf]
        split_ifs
        · exact setC_filter_comm source rF a.1 a.2 ha
        · exact setC_filter_comm source rF a.1 _ ha
        · rfl
        · rfl
      | none =>
        have hlf : lookupC (rF.filter (fun kv => hasKeyC source kv.1)) a.1 = none := by
          rw [lookupC_filter_of_key source rF a.1 ha]
          exact hl
        simp only [updStep, hl, hlf]
        exact setC_filter_comm source rF a.1 a.2 ha
    have hpair : updStep opts (rF.filter (fun kv => hasKeyC source kv.1), stT) a =
        (((updStep opts (rF, stF) a).1).filter (fun kv => hasKeyC source kv.1),
          (updStep opts (rF.filter (fun kv => hasKeyC source kv.1), stT) a).2) :=
      Prod.ext hstep rfl
    rw [hpair]
    exact ih hsub' ((updStep opts (rF, stF) a).1)
      ((updStep opts (rF.filter (fun kv => hasKeyC source kv.1), stT) a).2)
      ((updStep opts (rF, stF) a).2)

theorem keys_updStep_cases (opts : UpdateLocaleOptions) (acc : Catalog × UpdateStats)
    (kv : String × String) :
    (updStep opts acc kv).1.map Prod.fst = acc.1.map Prod.fst ∨
      (updStep opts acc kv).1.map Prod.fst = acc.1.map Prod.fst ++ [kv.1] := by
  rcases updStep_shape opts acc kv with hs | ⟨v, hs⟩
  · exact Or.inl (by rw [hs])
  · rw [hs]
    cases hk : hasKeyC acc.1 kv.1 with
    | true => exact Or.inl (keys_setC_of_hasKey _ _ _ hk)
    | false => exact Or.inr (keys_setC_absent _ _ _ hk)

theorem keys_foldl_extend (opts : UpdateLocaleOptions) (src : List (String × String)) :
    ∀ acc : Catalog × UpdateStats, ∃ ap : List String,
      ((src.foldl (updStep opts) acc).1).map Prod.fst = acc.1.map Prod.fst ++ ap ∧
      ∀ k ∈ ap, k ∈ src.map Prod.fst := by
  induction src with
  | nil =>
    intro acc
    exact ⟨[], by simp, by simp⟩
  | cons a t ih =>
    intro acc
    rw [List.foldl_cons]
    obtain ⟨ap, hap, hsub⟩ := ih (updStep opts acc a)
    rcases keys_updStep_cases opts acc a with hk | hk
    · refine ⟨ap, by rw [hap, hk], ?_⟩
      intro k hk'
      exact List.mem_cons_of_mem _ (hsub k hk')
    · refine ⟨a.1 :: ap, ?_, ?_⟩
      · rw [hap, hk, List.append_assoc, List.singleton_append]
      · intro k hk'
        rcases List.mem_cons.mp hk' with rfl | hmem
        · exact List.mem_cons_self _ _
        · exact List.mem_cons_of_mem _ (hsub k hmem)

theorem map_fst_filter_keyPred (c : Catalog) (q : String → Bool) :
    (c.filter (fun kv => q kv.1)).map Prod.fst = (c.map Prod.fst).filter q := by
  induction c with
  | nil => rfl
  | cons a t ih =>
    by_cases hq : q a.1 = true <;> simp [List.filter_cons, hq, ih]

theorem contains_filter_of_mem (l : List String) (q : String → Bool) (k : String)
    (h : k ∈ l) : (l.filter q).contains k = q k := by
  cases hq : q k with
  | true =>
    have hmem : k ∈ l.filter q := List.mem_filter.mpr ⟨h, hq⟩
    simpa using hmem
  | false =>
    cases hc : (l.filter q).contains k with
    | false => rfl
    | true =>
      have hmem : k ∈ l.filter q := by simpa using hc
      have := (List.mem_filter.mp hmem).2
      rw [hq] at this
      exact absurd this (by simp)

/-- Claim C6: the keys deleted by `updateLocale` with `flush: true`, relative
to the same call with `flush: false`, are exactly `findUnused source target`
(here computed, order included, as the flush-off keys absent from the
flush-on result). -/
theorem findUnused_flush_partition (source target : Catalog)
    (opts : UpdateLocaleOptions) :
    ((updateLocale source target { opts with flush := false }).1.map Prod.fst).filter
        (fun k => !(((updateLocale source target { opts with flush := true }).1.map
          Prod.fst).contains k)) =
      findUnused source target := by
  have hF : (updateLocale source target { opts with flush := false }).1 =
      (source.foldl (updStep opts) (target, { removed := 0 })).1 := by
    rw [updateLocale, updStep_flush_irrel]
    simp
  have hT : (updateLocale source target { opts with flush := true }).1 =
      (source.foldl (updStep opts)
        (target.filter (fun kv => hasKeyC source kv.1),
          { removed := (target.filter (fun kv => !(hasKeyC source kv.1))).length })).1 := by
    rw [updateLocale, updStep_flush_irrel]
    simp
  have hsub : ∀ kv ∈ source, hasKeyC source kv.1 = true := by
    intro kv hkv
    exact List.any_eq_true.mpr ⟨kv, hkv, by simp⟩
  have hsim := foldl_filter_sim opts source source hsub target
    { removed := (target.filter (fun kv => !(hasKeyC source kv.1))).length }
    { removed := 0 }
  rw [hF, hT, hsim]
  set rF := (source.foldl (updStep opts) (target, { removed := 0 })).1 with hrF
  rw [map_fst_filter_keyPred rF (fun k => hasKeyC source k)]
  obtain ⟨ap, hap, hapsub⟩ := keys_foldl_extend opts source (target, { removed := 0 })
  have hcongr : (rF.map Prod.fst).filter
      (fun k => !(((rF.map Prod.fst).filter (fun k => hasKeyC source k)).contains k)) =
      (rF.map Prod.fst).filter (fun k => !(hasKeyC source k)) := by
    apply List.filter_congr
    intro k hk
    rw [contains_filter_of_mem (rF.map Prod.fst) (fun k => hasKeyC source k) k hk]
  rw [hcongr]
  have hkeys : rF.map Prod.fst = target.map Prod.fst ++ ap := hap
  rw [hkeys, List.filter_append]
  have hap0 : ap.filter (fun k => !(hasKeyC source k)) = [] := by
    rw [List.filter_eq_nil_iff]
    intro k hk
    have : hasKeyC source k = true := by
      rw [hasKeyC_iff_mem]
      exact hapsub k hk
    simp [this]
  rw [hap0, List.append_nil]
  rw [findUnused, map_fst_filter_keyPred target (fun k => !(hasKeyC source k))]
